import Mathlib

/-!
Verification of the airline-routes program (src/Program/airlineRoutes.py).

The shallow embedding below translates the core functions of the source:
the bidirectional search (find_routes and its helpers over anytree nodes),
the optimal-route selector (find_optimal_route, calculate_distance,
calculate_total_distance), and the flight-detail resolution (find_airline,
all_airlines, randomize_airline_list).

Modelling conventions:
- An anytree Node tree is a rose tree of airport-code strings.  A node is
  identified by its root-to-node list of names; this is faithful because
  sibling names are produced from Python sets in the source, and where the
  source compares nodes by object identity across distinct trees the result
  is always False, which is translated literally.
- Python float arithmetic is modelled over the reals.
- The randint randomness source is modelled as an injected stream of
  naturals, reduced modulo the list length, which realises every possible
  sequence of draws.
- Recursion of find_routes and randomize_airline_list is modelled with
  explicit fuel; a result of none means the recursion does not return
  within the given fuel (for any fuel: it never returns).
-/

/-- A search tree as built by the source from anytree Nodes: a name and the
list of child subtrees, in insertion order (anytree preserves child order,
and node.leaves lists leaves in depth-first pre-order). -/
inductive STree where
  | mk (name : String) (children : List STree)

mutual
/-- Decidable equality of search trees (structural). -/
def STree.decEq : (a b : STree) → Decidable (a = b)
  | .mk n cs, .mk m ds =>
    match String.decEq n m with
    | isFalse h => isFalse (by intro he; cases he; exact h rfl)
    | isTrue h =>
      match STree.decEqL cs ds with
      | isFalse h2 => isFalse (by intro he; cases he; exact h2 rfl)
      | isTrue h2 => isTrue (by rw [h, h2])
/-- Decidable equality of lists of search trees. -/
def STree.decEqL : (a b : List STree) → Decidable (a = b)
  | [], [] => isTrue rfl
  | [], _ :: _ => isFalse (by intro he; cases he)
  | _ :: _, [] => isFalse (by intro he; cases he)
  | c :: cs, d :: ds =>
    match STree.decEq c d with
    | isFalse h1 => isFalse (by intro he; cases he; exact h1 rfl)
    | isTrue h1 =>
      match STree.decEqL cs ds with
      | isFalse h2 => isFalse (by intro he; cases he; exact h2 rfl)
      | isTrue h2 => isTrue (by rw [h1, h2])
end

instance : DecidableEq STree := STree.decEq

/-- Name of the root of a tree (anytree node.name). -/
def STree.nameOf : STree → String
  | .mk n _ => n

/-- Children of the root (anytree node.children). -/
def STree.childrenOf : STree → List STree
  | .mk _ cs => cs

/-- anytree node.is_leaf: no children. -/
def STree.isLeaf : STree → Bool
  | .mk _ cs => cs.isEmpty

mutual
/-- anytree node.height: number of edges on the longest downward path from
the node to a leaf. -/
def heightT : STree → Nat
  | .mk _ cs => heightL cs
/-- Height helper on child lists: 0 for no children, otherwise one more
than the maximal child height. -/
def heightL : List STree → Nat
  | [] => 0
  | c :: cs => max (1 + heightT c) (heightL cs)
end

mutual
/-- The root-to-leaf name paths of a tree, in depth-first pre-order: this
is node.path restricted to names, for each node of node.leaves, in the
order anytree enumerates leaves. -/
def leavesPaths : STree → List (List String)
  | .mk n [] => [[n]]
  | .mk n (c :: cs) => leavesPathsL n (c :: cs)
/-- Leaf paths of a list of sibling subtrees, each prefixed with the
parent name. -/
def leavesPathsL (n : String) : List STree → List (List String)
  | [] => []
  | c :: cs => (leavesPaths c).map (fun p => n :: p) ++ leavesPathsL n cs
end

/-- Name of the node a root-to-node path leads to: the last name on the
path (paths are never empty; the default is unreachable). -/
def pathName (p : List String) : String := p.getLastD ""

/-- Source retrieve_leaves: the names of the leaves of the tree, in leaf
order. -/
def retrieve_leaves (t : STree) : List String := (leavesPaths t).map pathName

mutual
/-- The non-leaf branch of source build_search_tree: for every leaf of the
tree, attach one child per element of list_function(leaf.name). -/
def addToLeaves (fn : String → List String) : STree → STree
  | .mk n [] => .mk n ((fn n).map (fun c => .mk c []))
  | .mk n (c :: cs) => .mk n (addToLeavesL fn (c :: cs))
/-- addToLeaves mapped over sibling subtrees. -/
def addToLeavesL (fn : String → List String) : List STree → List STree
  | [] => []
  | c :: cs => addToLeaves fn c :: addToLeavesL fn cs
end

/-- Source build_search_tree(node, possible_list, list_function): if the
tree is a single leaf, attach one child per element of possible_list to
the root; otherwise attach children from list_function at every leaf. -/
def build_search_tree (possibleList : List String) (fn : String → List String)
    (t : STree) : STree :=
  if t.isLeaf then .mk t.nameOf (possibleList.map (fun c => .mk c []))
  else addToLeaves fn t

/-- Source compare(start_lists, destination_lists): the elements of the
first list that also occur in the second.  In the program this only ever
runs on the two string sets of the first call; on later calls the lists
hold Node objects whose membership test is object identity and never
matches, which findRoutesStep translates by passing an empty match list. -/
def compareStr (xs ys : List String) : List String :=
  xs.filter (fun c => ys.contains c)

/-- Source compare_node(start_lists, destination_lists): all pairs of a
start-side leaf and a destination-side leaf with equal names, in the
nested iteration order of the source.  A leaf node together with its
parent reference is identified by its root-to-leaf name path, and the
subsequent get_path_from_tree reconstruction returns exactly that leaf's
path, so the pair of paths is recorded directly. -/
def compare_node (ps qs : List (List String)) : List (List String × List String) :=
  ps.flatMap (fun p => (qs.filter (fun q => pathName q == pathName p)).map (fun q => (p, q)))

/-- Source get_path(node, tree): the root-to-leaf path of the first leaf
of the tree whose name equals the given string.  The source returns None
when no leaf matches (the empty default here); that case crashes the
source on the subsequent reversal and is unreachable at the call site,
where the name is drawn from the tree's leaf names. -/
def get_path (c : String) (t : STree) : List String :=
  ((leavesPaths t).find? (fun p => pathName p == c)).getD []

/-- Source clean_path inner loop for one matched pair: start from the
forward path and append each element of the reversed backward path unless
it equals the current last element (this drops the duplicated meeting
point). -/
def cleanOne (fwd rev : List String) : List String :=
  rev.foldl (fun temp x => if temp.getLastD "" == x then temp else temp ++ [x]) fwd

/-- Source clean_path: convert every matched (forward path, reversed
backward path) pair into a single route of airport codes. -/
def clean_path (prs : List (List String × List String)) : List (List String) :=
  prs.map (fun pr => cleanOne pr.1 pr.2)

/-- The right operand of the source guard start_node.height == 5 and
start_node == 5 (line 228): an anytree Node compared with the int 5.
Node does not define equality against ints, so Python falls back to
identity and the comparison is always False. -/
def nodeEqFive (_t : STree) : Bool := false

/-- Result of one invocation of find_routes: either a list of routes, or
the NoRouteFound exit (the source writes a diagnostic and calls
sys.exit(2)). -/
inductive FRResult where
  | routes (paths : List (List String))
  | noroute
deriving DecidableEq

/-- One step of find_routes: either a final result or a tail call with the
two updated trees (the recursive calls of the source always pass the
leaves of the trees they pass, so the trees determine the arguments). -/
inductive StepRes where
  | ret (r : FRResult)
  | rec2 (sT dT : STree)
deriving DecidableEq

/-- The tail of the find_routes body after a match list has been computed:
the dead depth guard (line 228), the match return (lines 232 to 236), and
the choice of which tree to expand (lines 238 to 245): the start tree when
the two heights are equal, the stop tree otherwise. -/
def afterMatch (f g : String → List String) (sT dT : STree)
    (matchedPaths : List (List String × List String)) : StepRes :=
  if heightT sT == 5 && nodeEqFive sT then .ret .noroute
  else if matchedPaths.isEmpty = false then .ret (.routes (clean_path matchedPaths))
  else if heightT sT == heightT dT then
    .rec2 (build_search_tree (retrieve_leaves sT) f sT) dT
  else
    .rec2 sT (build_search_tree (retrieve_leaves dT) g dT)

/-- One body of source find_routes(start, stop, start_list,
destination_list, start_node, stop_node).  On the first call start_list
and destination_list are the string sets passed from main (startList0 and
destList0); on recursive calls they are the leaf-node tuples of the two
trees, on which the membership test of line 213 and the compare of line
218 use object identity and never match, translated here by the first
flag. -/
def findRoutesStep (f g : String → List String) (start stop : String)
    (startList0 destList0 : List String) (sT dT : STree) (first : Bool) : StepRes :=
  if first && startList0.contains stop then .ret (.routes [[start, stop]])
  else if heightT sT < 2 then
    let matched := if first then compareStr destList0 startList0 else []
    let matchedPath := matched.map (fun c => (get_path c sT, (get_path c dT).reverse))
    if matchedPath.isEmpty = false then .ret (.routes (clean_path matchedPath))
    else afterMatch f g sT dT []
  else
    afterMatch f g sT dT
      ((compare_node (leavesPaths sT) (leavesPaths dT)).map (fun pr => (pr.1, pr.2.reverse)))

/-- Source find_routes as a fuel-indexed recursion: none means the
recursion has not returned within the given fuel.  A run that returns
none for every fuel never terminates. -/
def find_routes (f g : String → List String) (start stop : String)
    (startList0 destList0 : List String) :
    Nat → STree → STree → Bool → Option FRResult
  | 0, _, _, _ => none
  | fuel + 1, sT, dT, first =>
    match findRoutesStep f g start stop startList0 destList0 sT dT first with
    | .ret r => some r
    | .rec2 sT2 dT2 => find_routes f g start stop startList0 destList0 fuel sT2 dT2 false

/-- Source find_possible_destinations: the set of destination codes of the
route edges leaving the given code.  Python returns a set; the model keeps
the first occurrence of each code. -/
def find_possible_destinations (routes : List (String × String)) (code : String) :
    List String :=
  ((routes.filter (fun r => r.1 == code)).map (fun r => r.2)).dedup

/-- Source find_possible_starts: the set of source codes of the route
edges entering the given code. -/
def find_possible_starts (routes : List (String × String)) (code : String) :
    List String :=
  ((routes.filter (fun r => r.2 == code)).map (fun r => r.1)).dedup

/-- The invocation of find_routes made by main: both search trees are
built by build_search_tree from single nodes and the neighbor sets, and
the first call receives those neighbor sets as start_list and
destination_list. -/
def mainFindRoutes (routes : List (String × String)) (start stop : String)
    (fuel : Nat) : Option FRResult :=
  let f := find_possible_destinations routes
  let g := find_possible_starts routes
  find_routes f g start stop (f start) (g stop) fuel
    (build_search_tree (f start) f (.mk start []))
    (build_search_tree (g stop) g (.mk stop []))
    true

/-- The canonical search tree of all walks of length at most k from a
given code, following the neighbor function f.  The trees that find_routes
actually builds are of this shape whenever the root has at least one
neighbor. -/
def ftree (f : String → List String) : Nat → String → STree
  | 0, x => .mk x []
  | k + 1, x => .mk x ((f x).map (ftree f k))

/-- A coordinate: latitude and longitude in degrees.  The source reads
them as strings from airports.csv and converts with float(); the model
works over the reals. -/
def Coord : Type := ℝ × ℝ

/-- math.radians: degrees to radians. -/
noncomputable def radiansOf (x : ℝ) : ℝ := x * Real.pi / 180

/-- Source calculate_distance(start_city, end_city): the Haversine
great-circle distance between two coordinates, with Earth radius 6371. -/
noncomputable def calculate_distance (start_city end_city : Coord) : ℝ :=
  let latitude1 := radiansOf start_city.1
  let latitude2 := radiansOf end_city.1
  let longitude1 := radiansOf start_city.2
  let longitude2 := radiansOf end_city.2
  let r : ℝ := 6371
  let value1 := (Real.sin ((latitude2 - latitude1) / 2)) ^ 2
  let value2 := Real.cos latitude1 * Real.cos latitude2 *
    (Real.sin ((longitude2 - longitude1) / 2)) ^ 2
  let d := Real.sqrt (value1 + value2)
  2 * r * Real.arcsin d

/-- Source calculate_total_distance: the sum of calculate_distance over
consecutive coordinate pairs of a path (the source loops an index from 0
to len-2). -/
noncomputable def calculate_total_distance : List Coord → ℝ
  | [] => 0
  | [_] => 0
  | a :: b :: rest => calculate_distance a b + calculate_total_distance (b :: rest)

/-- The value of the optimal_route variable of source find_optimal_route:
the initial empty list, or the two-element list [path, distance]. -/
inductive OptimalRoute where
  | empty
  | found (path : List String) (dist : ℝ)

/-- Loop body of source find_optimal_route over the remaining (candidate
coordinates, candidate path) pairs: a candidate whose coordinate list
contains a non-tuple entry (a None from find_location) is skipped;
otherwise its total distance is computed and the incumbent is replaced
when it is empty or its distance is strictly larger. -/
noncomputable def findOptimalRouteAux :
    List (List (Option Coord) × List String) → OptimalRoute → OptimalRoute
  | [], acc => acc
  | (locs, path) :: rest, acc =>
    if locs.all Option.isSome then
      let distance := calculate_total_distance locs.reduceOption
      match acc with
      | .empty => findOptimalRouteAux rest (.found path distance)
      | .found p0 d0 =>
        if d0 > distance then findOptimalRouteAux rest (.found path distance)
        else findOptimalRouteAux rest (.found p0 d0)
    else findOptimalRouteAux rest acc

/-- Source find_optimal_route(path_locations, path_lists): iterate the
candidates in order starting from the empty incumbent.  The source
indexes path_lists with the loop index over path_locations; main always
passes two aligned lists, modelled by zipping them. -/
noncomputable def find_optimal_route (pathLocations : List (List (Option Coord)))
    (pathLists : List (List String)) : OptimalRoute :=
  findOptimalRouteAux (pathLocations.zip pathLists) .empty

/-- The first thing source write_optimal_route does with the selector
result: read optimal_route[0] and optimal_route[1] (lines 472 and 483).
On the empty list this raises an uncaught IndexError, modelled as none. -/
def writeOptimalRouteSelect : OptimalRoute → Option (List String × ℝ)
  | .empty => none
  | .found p d => some (p, d)

/-- One row of airlines.csv as read by find_airline: airline[0] (the id,
converted with int), airline[3] (IATA code), airline[4] (ICAO code) and
airline[7] (the active flag). -/
structure AirlineRow where
  id : Int
  iata : String
  icao : String
  active : String

/-- Source find_airline(number): scan airlines.csv and return the
(IATA, ICAO) pair of the first row whose id matches and whose active
column is Y; None when no such row exists (including when the only
matching rows are inactive). -/
def find_airline (db : List AirlineRow) (number : Int) : Option (String × String) :=
  (db.find? (fun a => a.id == number && a.active == "Y")).map (fun a => (a.iata, a.icao))

/-- Source all_airlines(flight_details): resolve the airline id of every
(airlineId, stops) edge through find_airline, keeping one entry per edge;
an id with no active match contributes a None entry. -/
def all_airlines (db : List AirlineRow) (flight_details : List (Int × Int)) :
    List (Option (String × String)) :=
  flight_details.map (fun detail => find_airline db detail.1)

/-- Outcome of one call to randomize_airline_list: a carrier label with
its stop count, or an uncaught Python exception (TypeError on
subscripting a None candidate, IndexError on a short flight_details list,
ValueError from randint on an empty candidate list). -/
inductive RALResult where
  | label (s : String) (stops : Int)
  | exn
deriving DecidableEq

/-- Source randomize_airline_list(lists, flight_details) with fuel: draw
random = randint(0, len(lists)-1), return the IATA code of the drawn
candidate when it is non-empty and not the null sentinel, else its ICAO
code under the same condition, else recurse on the same arguments.  The
stream rng provides the random draws (entry step, step+1, ... reduced
modulo the list length); none means the recursion has not returned within
the fuel. -/
def randomize_airline_list (rng : Nat → Nat) :
    Nat → Nat → List (Option (String × String)) → List (Int × Int) →
    Option RALResult
  | 0, _, _, _ => none
  | fuel + 1, step, lists, flight_details =>
    if lists.length = 0 then some .exn
    else
      let random := rng step % lists.length
      match lists.get? random with
      | none => some .exn
      | some none => some .exn
      | some (some cand) =>
        if cand.1.length ≠ 0 ∧ cand.1 ≠ "\\N" then
          match flight_details.get? random with
          | none => some .exn
          | some fd => some (.label cand.1 fd.2)
        else if cand.2.length ≠ 0 ∧ cand.2 ≠ "\\N" then
          match flight_details.get? random with
          | none => some .exn
          | some fd => some (.label cand.2 fd.2)
        else
          randomize_airline_list rng fuel (step + 1) lists flight_details

/-- Modelled from the spec (section 4.2): the Haversine distance
d = 2R times asin of the square root of sin squared of half the latitude
difference plus cos lat1 times cos lat2 times sin squared of half the
longitude difference, with R = 6371 and angles in radians. -/
noncomputable def haversineSpec (A B : Coord) : ℝ :=
  2 * 6371 * Real.arcsin (Real.sqrt
    ((Real.sin ((radiansOf B.1 - radiansOf A.1) / 2)) ^ 2 +
     Real.cos (radiansOf A.1) * Real.cos (radiansOf B.1) *
     (Real.sin ((radiansOf B.2 - radiansOf A.2) / 2)) ^ 2))

/-- Helper: the total distance of a candidate, as find_optimal_route
computes it from the candidate's coordinate list. -/
noncomputable def candDistance (pr : List (Option Coord) × List String) : ℝ :=
  calculate_total_distance pr.1.reduceOption

/-- A concrete forward-neighbor function used to exercise the expansion
choice: S has successor A and A has successor X. -/
def f4 : String → List String :=
  fun c => if c = "S" then ["A"] else if c = "A" then ["X"] else []

/-- A concrete backward-neighbor function: D has predecessor B and B has
predecessor Y. -/
def g4 : String → List String :=
  fun c => if c = "D" then ["B"] else if c = "B" then ["Y"] else []

/-- The forward frontier of f4 after one level. -/
def sTc : STree := .mk "S" [.mk "A" []]

/-- The backward frontier of g4 after one level. -/
def dTc : STree := .mk "D" [.mk "B" []]

/-- The state reached by the search on the empty route graph after two
rounds: the start tree with one artificial child
(build_search_tree attaches the leaf names themselves when the tree is a
single node). -/
def emptyLoopS : STree := .mk "AAA" [.mk "AAA" []]

/-- The stop tree of the same looping state. -/
def emptyLoopD : STree := .mk "BBB" [.mk "BBB" []]

/-- C7: calculate_distance is the Haversine great-circle distance with
R = 6371 and degree-to-radian conversion; it is zero on equal coordinates
and symmetric in its two arguments. -/
theorem c7_calculate_distance_haversine :
    (∀ A B : Coord, calculate_distance A B = haversineSpec A B) ∧
    (∀ A : Coord, calculate_distance A A = 0) ∧
    (∀ A B : Coord, calculate_distance A B = calculate_distance B A) := by
  have unf : ∀ A B : Coord, calculate_distance A B = haversineSpec A B :=
    fun A B => rfl
  have key : ∀ x y : ℝ, Real.sin ((x - y) / 2) ^ 2 = Real.sin ((y - x) / 2) ^ 2 := by
    intro x y
    rw [show (x - y) / 2 = -((y - x) / 2) by ring, Real.sin_neg, neg_sq]
  refine ⟨unf, fun A => ?_, fun A B => ?_⟩
  · rw [unf, haversineSpec]
    simp
  · rw [unf, unf, haversineSpec, haversineSpec,
      key (radiansOf B.1) (radiansOf A.1), key (radiansOf B.2) (radiansOf A.2),
      mul_comm (Real.cos (radiansOf A.1)) (Real.cos (radiansOf B.1))]

/-- C2: on a candidate list whose only entry has empty IATA and ICAO
labels, randomize_airline_list never returns, for every randomness stream
and every recursion budget: the source retries unboundedly instead of
failing with a NoAirlineLabel error after a bounded number of resamples. -/
theorem c2_randomize_retries_unboundedly :
    ∀ (rng : Nat → Nat) (fuel step : Nat),
      randomize_airline_list rng fuel step [some ("", "")] [(1, 0)] = none := by
  intro rng fuel
  induction fuel with
  | zero => intro step; rfl
  | succ n ih =>
    intro step
    rw [randomize_airline_list]
    have h0 : rng step % 1 = 0 := Nat.mod_one _
    simp [h0]
    exact ih (step + 1)

/-- C10: whenever randomize_airline_list returns a label and a stop count,
both come from the same position of its two input lists: the stop count is
the one recorded at the same index as the airline whose IATA or ICAO code
was returned, for input lists of equal length. -/
theorem c10_label_and_stops_same_edge :
    ∀ (rng : Nat → Nat) (fuel step : Nat)
      (lists : List (Option (String × String))) (flight_details : List (Int × Int))
      (s : String) (st : Int),
      lists.length = flight_details.length →
      randomize_airline_list rng fuel step lists flight_details =
        some (.label s st) →
      ∃ i cand q, lists.get? i = some (some cand) ∧
        flight_details.get? i = some q ∧ (s = cand.1 ∨ s = cand.2) ∧ st = q.2 := by
  intro rng fuel
  induction fuel with
  | zero =>
    intro step lists fd s st hlen h
    exact absurd h (by simp [randomize_airline_list])
  | succ n ih =>
    intro step lists fd s st hlen h
    rw [randomize_airline_list] at h
    split at h
    · exact absurd h (by simp)
    · dsimp only at h
      split at h
      · exact absurd h (by simp)
      · exact absurd h (by simp)
      · rename_i cand hget
        split at h
        · split at h
          · exact absurd h (by simp)
          · rename_i fd0 hfd
            refine ⟨rng step % lists.length, cand, fd0, hget, hfd, ?_⟩
            have h2 := Option.some.inj h
            cases h2
            exact ⟨Or.inl rfl, rfl⟩
        · split at h
          · split at h
            · exact absurd h (by simp)
            · rename_i fd0 hfd
              refine ⟨rng step % lists.length, cand, fd0, hget, hfd, ?_⟩
              have h2 := Option.some.inj h
              cases h2
              exact ⟨Or.inr rfl, rfl⟩
          · exact ih (step + 1) lists fd s st hlen h

/-- Witness for C10 at a concrete input: the label AA and stop count 2 are
read from the same index of the two lists. -/
theorem c10_witness :
    ∃ i cand q, [some ("AA", "AAA")].get? i = some (some cand) ∧
      [((5 : Int), (2 : Int))].get? i = some q ∧
      ("AA" = cand.1 ∨ "AA" = cand.2) ∧ (2 : Int) = q.2 :=
  c10_label_and_stops_same_edge (fun _ => 0) 1 0 [some ("AA", "AAA")]
    [(5, 2)] "AA" 2 rfl rfl

/-- C8 counterexample: an edge whose airline is inactive (active column N)
contributes a None placeholder to the list from which the random choice is
made, so that list is not made of active-carrier label pairs only, and
drawing the placeholder raises an uncaught TypeError. -/
theorem c8_counterexample :
    all_airlines [⟨1, "AA", "AAA", "N"⟩] [(1, 0)] = [none] ∧
    randomize_airline_list (fun _ => 0) 1 0 [none] [(1, 0)] = some .exn := by
  exact ⟨rfl, rfl⟩

/-- C8 as amended: the candidate list has one entry per edge, each entry
being find_airline of that edge's airlineId; find_airline only ever
returns the label pair of an active (Y) row, so every resolved entry is an
active-carrier label pair, while an inactive airlineId leaves a None entry
in the list instead of contributing no candidate. -/
theorem c8_active_rows_only :
    ∀ (db : List AirlineRow) (details : List (Int × Int)),
      all_airlines db details = details.map (fun d => find_airline db d.1) ∧
      (∀ (number : Int) (pr : String × String), find_airline db number = some pr →
        ∃ row, row ∈ db ∧ row.active = "Y" ∧ row.id = number ∧
          pr = (row.iata, row.icao)) := by
  intro db details
  refine ⟨rfl, ?_⟩
  intro number pr h
  unfold find_airline at h
  cases hf : db.find? (fun a => a.id == number && a.active == "Y") with
  | none => rw [hf] at h; exact absurd h (by simp)
  | some row =>
    rw [hf] at h
    simp only [Option.map_some'] at h
    have hmem := List.mem_of_find?_eq_some hf
    have hpred := List.find?_some hf
    simp only [Bool.and_eq_true, beq_iff_eq] at hpred
    exact ⟨row, hmem, hpred.2, hpred.1, (Option.some.inj h).symm⟩

/-- Witness for C8's amended statement at a concrete table: the active row
behind a resolved label pair is produced. -/
theorem c8_witness :
    ∃ row, row ∈ [AirlineRow.mk 1 "AA" "AAA" "Y"] ∧ row.active = "Y" ∧
      row.id = 1 ∧ ("AA", "AAA") = (row.iata, row.icao) :=
  (c8_active_rows_only [AirlineRow.mk 1 "AA" "AAA" "Y"] []).2 1 ("AA", "AAA") rfl

/-- C3 counterexample: when every candidate lacks a coordinate the
selector find_optimal_route returns the empty list as a normal value; no
NoOptimalRoute failure is raised by the selector, and the failure only
appears as an uncaught IndexError when write_optimal_route indexes the
empty result. -/
theorem c3_counterexample :
    find_optimal_route [[(none : Option Coord)]] [["X"]] = OptimalRoute.empty ∧
    writeOptimalRouteSelect
      (find_optimal_route [[(none : Option Coord)]] [["X"]]) = none := by
  exact ⟨rfl, rfl⟩

/-- Candidates whose coordinate list contains a non-tuple entry have no
effect on the selection loop: the loop computes the same result as on the
list restricted to complete candidates. -/
theorem findOptimalRouteAux_filter :
    ∀ (prs : List (List (Option Coord) × List String)) (acc : OptimalRoute),
      findOptimalRouteAux prs acc =
        findOptimalRouteAux (prs.filter (fun pr => pr.1.all Option.isSome)) acc := by
  intro prs
  induction prs with
  | nil => intro acc; rfl
  | cons hd tl ih =>
    intro acc
    obtain ⟨locs, path⟩ := hd
    by_cases hc : locs.all Option.isSome = true
    · rw [List.filter_cons_of_pos (by simpa using hc)]
      cases acc with
      | empty =>
        simp only [findOptimalRouteAux, hc, if_true]
        exact ih _
      | found p0 d0 =>
        simp only [findOptimalRouteAux, hc, if_true]
        by_cases hlt : d0 > calculate_total_distance locs.reduceOption
        · simp only [hlt, if_true]
          exact ih _
        · simp only [hlt, if_false]
          exact ih _
    · rw [List.filter_cons_of_neg (by simpa using hc)]
      simp only [findOptimalRouteAux]
      rw [if_neg hc]
      exact ih acc

/-- C3 as amended: a candidate missing any coordinate is skipped locally
(the selection result only depends on the complete candidates); when every
candidate is excluded the selector returns the empty list as a value
rather than failing, and the failure only occurs afterwards when
write_optimal_route indexes the empty result (an uncaught IndexError, not
a NoOptimalRoute error). -/
theorem c3_exclusion_and_empty_result :
    (∀ (prs : List (List (Option Coord) × List String)) (acc : OptimalRoute),
      findOptimalRouteAux prs acc =
        findOptimalRouteAux (prs.filter (fun pr => pr.1.all Option.isSome)) acc) ∧
    (∀ (pls : List (List (Option Coord))) (pss : List (List String)),
      (∀ l ∈ pls, ¬ l.all Option.isSome = true) →
      find_optimal_route pls pss = .empty) ∧
    writeOptimalRouteSelect .empty = none := by
  refine ⟨findOptimalRouteAux_filter, ?_, rfl⟩
  intro pls pss hall
  have hnil : (pls.zip pss).filter (fun pr => pr.1.all Option.isSome) = [] := by
    rw [List.filter_eq_nil_iff]
    intro pr hpr
    simpa using hall pr.1 (List.of_mem_zip hpr).1
  unfold find_optimal_route
  rw [findOptimalRouteAux_filter, hnil]
  rfl

/-- Witness for C3's amended statement at a concrete input where both
candidates are incomplete: the selector returns the empty list. -/
theorem c3_witness :
    find_optimal_route [[(none : Option Coord)],
      [some ((1 : ℝ), (2 : ℝ)), (none : Option Coord)]] [["A"], ["B"]] = .empty :=
  c3_exclusion_and_empty_result.2.1 _ _ (by
    intro l hl
    simp only [List.mem_cons, List.mem_singleton] at hl
    rcases hl with h | h | h
    · subst h; simp
    · subst h; simp
    · exact absurd h (by simp))

/-- Behavior of the selection loop from a non-empty incumbent on complete
candidates: either the incumbent survives and its distance is a lower
bound for every candidate, or the result is the first candidate whose
distance is strictly below the incumbent and minimal, strictly below
every earlier candidate. -/
theorem findOptimalRouteAux_found_spec :
    ∀ (l : List (List (Option Coord) × List String)),
      (∀ pr ∈ l, pr.1.all Option.isSome = true) →
      ∀ (p0 : List String) (d0 : ℝ),
      (findOptimalRouteAux l (.found p0 d0) = .found p0 d0 ∧
        ∀ j pr, l.get? j = some pr → d0 ≤ candDistance pr) ∨
      (∃ i pr, l.get? i = some pr ∧
        findOptimalRouteAux l (.found p0 d0) = .found pr.2 (candDistance pr) ∧
        candDistance pr < d0 ∧
        (∀ j pr2, l.get? j = some pr2 → candDistance pr ≤ candDistance pr2) ∧
        (∀ j pr2, j < i → l.get? j = some pr2 → candDistance pr < candDistance pr2)) := by
  intro l
  induction l with
  | nil =>
    intro _ p0 d0
    left
    exact ⟨rfl, by intro j pr h; simp at h⟩
  | cons hd tl ih =>
    intro hcomp p0 d0
    obtain ⟨locs, path⟩ := hd
    have hc : locs.all Option.isSome = true := by
      simpa using hcomp ⟨locs, path⟩ (List.mem_cons_self _ _)
    have htl : ∀ pr ∈ tl, pr.1.all Option.isSome = true :=
      fun pr h => hcomp pr (List.mem_cons_of_mem _ h)
    have hcd : candDistance ⟨locs, path⟩ = calculate_total_distance locs.reduceOption := rfl
    simp only [findOptimalRouteAux, hc, if_true]
    by_cases hlt : d0 > calculate_total_distance locs.reduceOption
    · simp only [hlt, if_true]
      rcases ih htl path (calculate_total_distance locs.reduceOption) with
        ⟨heq, hall⟩ | ⟨i, pr, hget, heq, hless, hmin, hstrict⟩
      · right
        refine ⟨0, ⟨locs, path⟩, rfl, heq, hlt, ?_, ?_⟩
        · intro j pr2 hj
          cases j with
          | zero =>
            simp only [List.get?_cons_zero] at hj
            cases Option.some.inj hj
            exact le_refl _
          | succ m =>
            simp only [List.get?_cons_succ] at hj
            exact hall m pr2 hj
        · intro j pr2 hjlt _
          exact absurd hjlt (Nat.not_lt_zero _)
      · right
        refine ⟨i + 1, pr, by simpa using hget, heq, lt_trans hless hlt, ?_, ?_⟩
        · intro j pr2 hj
          cases j with
          | zero =>
            simp only [List.get?_cons_zero] at hj
            cases Option.some.inj hj
            exact le_of_lt hless
          | succ m =>
            simp only [List.get?_cons_succ] at hj
            exact hmin m pr2 hj
        · intro j pr2 hjlt hj
          cases j with
          | zero =>
            simp only [List.get?_cons_zero] at hj
            cases Option.some.inj hj
            exact hless
          | succ m =>
            simp only [List.get?_cons_succ] at hj
            exact hstrict m pr2 (Nat.lt_of_succ_lt_succ hjlt) hj
    · simp only [hlt, if_false]
      have hd0le : d0 ≤ calculate_total_distance locs.reduceOption := le_of_not_lt hlt
      rcases ih htl p0 d0 with ⟨heq, hall⟩ | ⟨i, pr, hget, heq, hless, hmin, hstrict⟩
      · left
        refine ⟨heq, ?_⟩
        intro j pr2 hj
        cases j with
        | zero =>
          simp only [List.get?_cons_zero] at hj
          cases Option.some.inj hj
          exact hd0le
        | succ m =>
          simp only [List.get?_cons_succ] at hj
          exact hall m pr2 hj
      · right
        refine ⟨i + 1, pr, by simpa using hget, heq, hless, ?_, ?_⟩
        · intro j pr2 hj
          cases j with
          | zero =>
            simp only [List.get?_cons_zero] at hj
            cases Option.some.inj hj
            exact le_trans (le_of_lt hless) hd0le
          | succ m =>
            simp only [List.get?_cons_succ] at hj
            exact hmin m pr2 hj
        · intro j pr2 hjlt hj
          cases j with
          | zero =>
            simp only [List.get?_cons_zero] at hj
            cases Option.some.inj hj
            exact lt_of_lt_of_le hless hd0le
          | succ m =>
            simp only [List.get?_cons_succ] at hj
            exact hstrict m pr2 (Nat.lt_of_succ_lt_succ hjlt) hj

/-- C5: on a non-empty candidate list with complete coordinates,
find_optimal_route returns the candidate with minimum total Haversine
distance together with that distance, and among equal minima the
first-seen candidate wins: the result's distance is strictly below every
earlier candidate's distance (the incumbent is only replaced on a strictly
smaller sum). -/
theorem c5_selector_returns_first_minimum :
    ∀ (pls : List (List (Option Coord))) (pss : List (List String)),
      pls.zip pss ≠ [] →
      (∀ l ∈ pls, l.all Option.isSome = true) →
      ∃ i pr, (pls.zip pss).get? i = some pr ∧
        find_optimal_route pls pss = .found pr.2 (candDistance pr) ∧
        (∀ j pr2, (pls.zip pss).get? j = some pr2 →
          candDistance pr ≤ candDistance pr2) ∧
        (∀ j pr2, j < i → (pls.zip pss).get? j = some pr2 →
          candDistance pr < candDistance pr2) := by
  intro pls pss hne hcomp
  have hcompz : ∀ pr ∈ pls.zip pss, pr.1.all Option.isSome = true := by
    intro pr hpr
    obtain ⟨a, b⟩ := pr
    exact hcomp a (List.of_mem_zip hpr).1
  obtain ⟨hd, tl, hzip⟩ : ∃ hd tl, pls.zip pss = hd :: tl := by
    cases hz : pls.zip pss with
    | nil => exact absurd hz hne
    | cons a b => exact ⟨a, b, rfl⟩
  obtain ⟨locs, path⟩ := hd
  have hc : locs.all Option.isSome = true := by
    simpa using hcompz ⟨locs, path⟩ (by rw [hzip]; exact List.mem_cons_self _ _)
  have hstep : find_optimal_route pls pss =
      findOptimalRouteAux tl (.found path (calculate_total_distance locs.reduceOption)) := by
    unfold find_optimal_route
    rw [hzip]
    simp [findOptimalRouteAux, hc]
  have htl : ∀ pr ∈ tl, pr.1.all Option.isSome = true := by
    intro pr h
    exact hcompz pr (by rw [hzip]; exact List.mem_cons_of_mem _ h)
  rcases findOptimalRouteAux_found_spec tl htl path
      (calculate_total_distance locs.reduceOption) with
    ⟨heq, hall⟩ | ⟨i, pr, hget, heq, hless, hmin, hstrict⟩
  · refine ⟨0, ⟨locs, path⟩, by rw [hzip]; rfl, by rw [hstep, heq]; rfl, ?_, ?_⟩
    · intro j pr2 hj
      rw [hzip] at hj
      cases j with
      | zero =>
        simp only [List.get?_cons_zero] at hj
        cases Option.some.inj hj
        exact le_refl _
      | succ m =>
        simp only [List.get?_cons_succ] at hj
        exact hall m pr2 hj
    · intro j pr2 hjlt _
      exact absurd hjlt (Nat.not_lt_zero _)
  · refine ⟨i + 1, pr, by rw [hzip]; simpa using hget, by rw [hstep]; exact heq, ?_, ?_⟩
    · intro j pr2 hj
      rw [hzip] at hj
      cases j with
      | zero =>
        simp only [List.get?_cons_zero] at hj
        cases Option.some.inj hj
        exact le_of_lt hless
      | succ m =>
        simp only [List.get?_cons_succ] at hj
        exact hmin m pr2 hj
    · intro j pr2 hjlt hj
      rw [hzip] at hj
      cases j with
      | zero =>
        simp only [List.get?_cons_zero] at hj
        cases Option.some.inj hj
        exact hless
      | succ m =>
        simp only [List.get?_cons_succ] at hj
        exact hstrict m pr2 (Nat.lt_of_succ_lt_succ hjlt) hj

/-- Witness for C5 at a single complete concrete candidate. -/
theorem c5_witness :
    ∃ i pr, ([[some ((0 : ℝ), (0 : ℝ))]].zip [["A"]]).get? i = some pr ∧
      find_optimal_route [[some ((0 : ℝ), (0 : ℝ))]] [["A"]] =
        .found pr.2 (candDistance pr) ∧
      (∀ j pr2, ([[some ((0 : ℝ), (0 : ℝ))]].zip [["A"]]).get? j = some pr2 →
        candDistance pr ≤ candDistance pr2) ∧
      (∀ j pr2, j < i → ([[some ((0 : ℝ), (0 : ℝ))]].zip [["A"]]).get? j = some pr2 →
        candDistance pr < candDistance pr2) :=
  c5_selector_returns_first_minimum [[some ((0 : ℝ), (0 : ℝ))]] [["A"]]
    (by simp) (by intro l hl; simp only [List.mem_singleton] at hl; subst hl; simp)

/-- Unfolding equation for one recursion step of find_routes. -/
theorem find_routes_succ (f g : String → List String) (start stop : String)
    (l0 d0 : List String) (fuel : Nat) (sT dT : STree) (first : Bool) :
    find_routes f g start stop l0 d0 (fuel + 1) sT dT first =
      match findRoutesStep f g start stop l0 d0 sT dT first with
      | .ret r => some r
      | .rec2 sT2 dT2 => find_routes f g start stop l0 d0 fuel sT2 dT2 false := rfl

/-- C6: when the destination is a direct forward-neighbor of the start,
the very first step of find_routes returns the single-hop route without
recursing, and the whole search returns exactly that route for any
positive fuel. -/
theorem c6_direct_neighbor_single_hop :
    ∀ (routes : List (String × String)) (S D : String),
      (find_possible_destinations routes S).contains D = true →
      (∀ sT dT : STree,
        findRoutesStep (find_possible_destinations routes) (find_possible_starts routes)
          S D (find_possible_destinations routes S) (find_possible_starts routes D)
          sT dT true = .ret (.routes [[S, D]])) ∧
      (∀ fuel, mainFindRoutes routes S D (fuel + 1) = some (.routes [[S, D]])) := by
  intro routes S D h
  have hstep : ∀ sT dT : STree,
      findRoutesStep (find_possible_destinations routes) (find_possible_starts routes)
        S D (find_possible_destinations routes S) (find_possible_starts routes D)
        sT dT true = .ret (.routes [[S, D]]) := by
    intro sT dT
    have hcond : (true && (find_possible_destinations routes S).contains D) = true := by
      rw [Bool.true_and, h]
    unfold findRoutesStep
    rw [if_pos hcond]
  refine ⟨hstep, ?_⟩
  intro fuel
  simp only [mainFindRoutes]
  rw [find_routes_succ, hstep]

/-- Witness for C6 on the one-edge graph: the single-hop route is
returned with one unit of fuel. -/
theorem c6_witness :
    mainFindRoutes [("S", "D")] "S" "D" 1 = some (.routes [["S", "D"]]) :=
  (c6_direct_neighbor_single_hop [("S", "D")] "S" "D" (by decide)).2 0

/-- C4 counterexample: at equal frontier depths with no match, the source
expands the forward (start) tree, not the backward tree: the recursive
call receives an expanded start tree and the unchanged stop tree, so the
claim that the backward frontier is expanded on equal depths fails. -/
theorem c4_counterexample :
    findRoutesStep f4 g4 "S" "D" ["A"] ["B"] sTc dTc false
        = .rec2 (build_search_tree (retrieve_leaves sTc) f4 sTc) dTc ∧
    build_search_tree (retrieve_leaves sTc) f4 sTc ≠ sTc ∧
    build_search_tree (retrieve_leaves dTc) g4 dTc ≠ dTc ∧
    ¬ findRoutesStep f4 g4 "S" "D" ["A"] ["B"] sTc dTc false
        = .rec2 sTc (build_search_tree (retrieve_leaves dTc) g4 dTc) := by
  refine ⟨by decide, by decide, by decide, by decide⟩

/-- Every recursing outcome of afterMatch expands the forward tree when
the two heights are equal and the backward tree when they differ. -/
theorem afterMatch_rec2 (f g : String → List String) (sT dT : STree)
    (mp : List (List String × List String)) (s2 d2 : STree)
    (h : afterMatch f g sT dT mp = .rec2 s2 d2) :
    (heightT sT = heightT dT →
      s2 = build_search_tree (retrieve_leaves sT) f sT ∧ d2 = dT) ∧
    (heightT sT ≠ heightT dT →
      s2 = sT ∧ d2 = build_search_tree (retrieve_leaves dT) g dT) := by
  unfold afterMatch at h
  split at h
  · exact absurd h (by simp)
  · split at h
    · exact absurd h (by simp)
    · split at h
      · rename_i hbeq
        cases h
        exact ⟨fun _ => ⟨rfl, rfl⟩, fun hne => absurd (by simpa using hbeq) hne⟩
      · rename_i hbeq
        cases h
        exact ⟨fun heq => absurd (by simp [heq]) hbeq, fun _ => ⟨rfl, rfl⟩⟩

/-- C4 as amended: whenever a search round recurses, the frontier that was
expanded is the forward tree if the two trees have equal height, and the
backward tree if the heights differ (in reachable rounds the backward tree
is then the shallower one). -/
theorem c4_equal_heights_expand_forward :
    ∀ (f g : String → List String) (start stop : String) (l0 d0 : List String)
      (sT dT s2 d2 : STree) (first : Bool),
      findRoutesStep f g start stop l0 d0 sT dT first = .rec2 s2 d2 →
      (heightT sT = heightT dT →
        s2 = build_search_tree (retrieve_leaves sT) f sT ∧ d2 = dT) ∧
      (heightT sT ≠ heightT dT →
        s2 = sT ∧ d2 = build_search_tree (retrieve_leaves dT) g dT) := by
  intro f g start stop l0 d0 sT dT s2 d2 first h
  unfold findRoutesStep at h
  split at h
  · exact absurd h (by simp)
  · split at h
    · dsimp only at h
      split at h
      · split at h
        · exact absurd h (by simp)
        · exact afterMatch_rec2 f g sT dT [] s2 d2 h
      · simp only [List.map_nil, List.isEmpty_nil, Bool.true_eq_false, if_false] at h
        exact afterMatch_rec2 f g sT dT [] s2 d2 h
    · exact afterMatch_rec2 f g sT dT _ s2 d2 h

/-- Witness for C4's amended statement at the concrete equal-height
round. -/
theorem c4_witness :
    (heightT sTc = heightT dTc →
      STree.mk "S" [STree.mk "A" [STree.mk "X" []]]
        = build_search_tree (retrieve_leaves sTc) f4 sTc ∧ dTc = dTc) ∧
    (heightT sTc ≠ heightT dTc →
      STree.mk "S" [STree.mk "A" [STree.mk "X" []]] = sTc ∧
        dTc = build_search_tree (retrieve_leaves dTc) g4 dTc) :=
  c4_equal_heights_expand_forward f4 g4 "S" "D" ["A"] ["B"] sTc dTc
    (STree.mk "S" [STree.mk "A" [STree.mk "X" []]]) dTc false (by decide)

/-- No step of find_routes can produce the NoRouteFound exit: its guard
conjoins the height test with a Node-to-int comparison that is always
False, so the exit branch is dead. -/
theorem findRoutesStep_ne_noroute :
    ∀ (f g : String → List String) (start stop : String) (l0 d0 : List String)
      (sT dT : STree) (first : Bool),
      findRoutesStep f g start stop l0 d0 sT dT first ≠ .ret .noroute := by
  intro f g start stop l0 d0 sT dT first
  have ham : ∀ mp, afterMatch f g sT dT mp ≠ .ret FRResult.noroute := by
    intro mp
    unfold afterMatch
    simp only [nodeEqFive, Bool.and_false, Bool.false_eq_true, if_false]
    split
    · simp
    · split <;> simp
  unfold findRoutesStep
  split
  · simp
  · split
    · dsimp only
      split
      · split
        · simp
        · exact ham []
      · simp only [List.map_nil, List.isEmpty_nil, Bool.true_eq_false, if_false]
        exact ham []
    · exact ham _

/-- On the empty route graph the search loops forever on a fixed state:
both trees have equal height 1, no match exists, and expanding the start
tree does not change it. -/
theorem find_routes_empty_loop :
    ∀ n, find_routes (find_possible_destinations []) (find_possible_starts [])
      "AAA" "BBB" [] [] n emptyLoopS emptyLoopD false = none := by
  intro n
  induction n with
  | zero => rfl
  | succ m ih =>
    rw [find_routes_succ]
    have hstep : findRoutesStep (find_possible_destinations []) (find_possible_starts [])
        "AAA" "BBB" [] [] emptyLoopS emptyLoopD false = .rec2 emptyLoopS emptyLoopD := by
      decide
    rw [hstep]
    exact ih

/-- C1: the NoRouteFound termination the spec requires does not exist in
the code.  First, no run of find_routes can ever return the NoRouteFound
exit, because the depth guard start_node.height == 5 and start_node == 5
compares a Node with an int and is never true.  Second, on a start and
destination with no path at all (the empty route graph) the search
recurses forever: it returns for no amount of fuel. -/
theorem c1_no_depth_bound_termination :
    (∀ (f g : String → List String) (start stop : String) (l0 d0 : List String)
      (fuel : Nat) (sT dT : STree) (first : Bool),
      find_routes f g start stop l0 d0 fuel sT dT first ≠ some .noroute) ∧
    (∀ fuel, mainFindRoutes [] "AAA" "BBB" fuel = none) := by
  constructor
  · intro f g start stop l0 d0 fuel
    induction fuel with
    | zero => intro sT dT first h; exact absurd h (by simp [find_routes])
    | succ n ih =>
      intro sT dT first h
      rw [find_routes_succ] at h
      cases hstep : findRoutesStep f g start stop l0 d0 sT dT first with
      | ret r =>
        rw [hstep] at h
        dsimp only at h
        cases Option.some.inj h
        exact findRoutesStep_ne_noroute f g start stop l0 d0 sT dT first hstep
      | rec2 sT2 dT2 =>
        rw [hstep] at h
        dsimp only at h
        exact ih sT2 dT2 false h
  · intro fuel
    cases fuel with
    | zero => rfl
    | succ n =>
      have e1 : mainFindRoutes [] "AAA" "BBB" (n + 1) =
          find_routes (find_possible_destinations []) (find_possible_starts [])
            "AAA" "BBB" [] [] (n + 1) (.mk "AAA" []) (.mk "BBB" []) true := rfl
      rw [e1, find_routes_succ]
      have h0 : findRoutesStep (find_possible_destinations []) (find_possible_starts [])
          "AAA" "BBB" [] [] (.mk "AAA" []) (.mk "BBB" []) true
          = .rec2 emptyLoopS (.mk "BBB" []) := by decide
      rw [h0]
      dsimp only
      cases n with
      | zero => rfl
      | succ m =>
        rw [find_routes_succ]
        have h1 : findRoutesStep (find_possible_destinations []) (find_possible_starts [])
            "AAA" "BBB" [] [] emptyLoopS (.mk "BBB" []) false
            = .rec2 emptyLoopS emptyLoopD := by decide
        rw [h1]
        dsimp only
        exact find_routes_empty_loop m

/-- A walk in the route graph along neighbor function f: a non-empty list
of codes starting at x in which every successive code is an f-neighbor of
its predecessor. -/
def IsWalk (f : String → List String) (x : String) (p : List String) : Prop :=
  p.head? = some x ∧ List.Chain' (fun u v => v ∈ f u) p

/-- The name of a non-empty path is its last element. -/
theorem pathName_eq_of_getLast? {p : List String} {x : String}
    (h : p.getLast? = some x) : pathName p = x := by
  unfold pathName
  rw [List.getLastD_eq_getLast?, h]
  rfl

/-- pathName of a cons with a non-empty tail is the tail's pathName. -/
theorem pathName_cons {q : List String} (x : String) (h : q ≠ []) :
    pathName (x :: q) = pathName q := by
  unfold pathName
  rw [List.getLastD_cons]
  cases q with
  | nil => exact absurd rfl h
  | cons a t =>
    rw [List.getLastD_cons, List.getLastD_cons]

/-- Leaf-path lists expressed as a flat map over the sibling trees. -/
theorem leavesPathsL_eq (n : String) :
    ∀ cs : List STree,
      leavesPathsL n cs = cs.flatMap (fun c => (leavesPaths c).map (fun p => n :: p)) := by
  intro cs
  induction cs with
  | nil => rfl
  | cons c t ih => rw [leavesPathsL, ih, List.flatMap_cons]

/-- Leaf paths of a tree with children. -/
theorem leavesPaths_mk_cons (n : String) (c : STree) (cs : List STree) :
    leavesPaths (.mk n (c :: cs)) =
      (c :: cs).flatMap (fun t => (leavesPaths t).map (fun p => n :: p)) := by
  rw [leavesPaths, leavesPathsL_eq]

/-- Expanding every leaf of a canonical tree gives the next canonical
tree, for any neighbor function. -/
theorem addToLeaves_ftree (f : String → List String) :
    ∀ (k : Nat) (x : String), addToLeaves f (ftree f k x) = ftree f (k + 1) x := by
  intro k
  induction k with
  | zero => intro x; rfl
  | succ j ih =>
    have hl : ∀ l : List String,
        addToLeavesL f (l.map (ftree f j)) = l.map (ftree f (j + 1)) := by
      intro l
      induction l with
      | nil => rfl
      | cons a t iht => rw [List.map_cons, addToLeavesL, iht, ih a, List.map_cons]
    intro x
    show addToLeaves f (.mk x ((f x).map (ftree f j))) = .mk x ((f x).map (ftree f (j + 1)))
    cases hfx : f x with
    | nil => simp [addToLeaves, hfx]
    | cons y ys =>
      rw [List.map_cons, addToLeaves, ← List.map_cons, hl (y :: ys), List.map_cons]

/-- Leaf paths of a canonical tree of positive depth: just the root when
it has no neighbors, else all extensions through the neighbors. -/
theorem leavesPaths_ftree_succ (f : String → List String) (k : Nat) (x : String) :
    leavesPaths (ftree f (k + 1) x) =
      if f x = [] then [[x]]
      else (f x).flatMap (fun y => (leavesPaths (ftree f k y)).map (fun p => x :: p)) := by
  cases hfx : f x with
  | nil =>
    rw [if_pos rfl]
    show leavesPaths (.mk x ((f x).map (ftree f k))) = [[x]]
    rw [hfx]
    rfl
  | cons y ys =>
    rw [if_neg (by simp)]
    show leavesPaths (.mk x ((f x).map (ftree f k))) = _
    rw [hfx, List.map_cons, leavesPaths_mk_cons, ← List.map_cons (ftree f k)]
    rw [List.flatMap_map]

/-- Every leaf path of a canonical tree is a walk from the root, and it
either has full length or ends in a code with no neighbors. -/
theorem leaves_walk (f : String → List String) :
    ∀ (k : Nat) (x : String) (p : List String),
      p ∈ leavesPaths (ftree f k x) →
      IsWalk f x p ∧ (p.length = k + 1 ∨ f (pathName p) = []) := by
  intro k
  induction k with
  | zero =>
    intro x p hp
    have hp2 : p = [x] := by
      have : leavesPaths (ftree f 0 x) = [[x]] := rfl
      rw [this] at hp
      simpa using hp
    subst hp2
    exact ⟨⟨rfl, List.chain'_singleton x⟩, Or.inl rfl⟩
  | succ j ih =>
    intro x p hp
    rw [leavesPaths_ftree_succ] at hp
    by_cases hfx : f x = []
    · rw [if_pos hfx] at hp
      have hp2 : p = [x] := by simpa using hp
      subst hp2
      exact ⟨⟨rfl, List.chain'_singleton x⟩, Or.inr hfx⟩
    · rw [if_neg hfx] at hp
      simp only [List.mem_flatMap, List.mem_map] at hp
      obtain ⟨y, hy, q, hq, hpq⟩ := hp
      subst hpq
      obtain ⟨⟨hqhead, hqchain⟩, hqlen⟩ := ih y q hq
      have hqne : q ≠ [] := by
        intro h
        rw [h] at hqhead
        exact absurd hqhead (by simp)
      refine ⟨⟨rfl, ?_⟩, ?_⟩
      · rw [List.chain'_cons']
        refine ⟨?_, hqchain⟩
        intro z hz
        rw [hqhead] at hz
        cases hz
        exact hy
      · cases hqlen with
        | inl hlen => left; simp [hlen]
        | inr hstuck => right; rw [pathName_cons x hqne]; exact hstuck

/-- Every walk from the root of full length is a leaf path of the
canonical tree. -/
theorem walk_leaves (f : String → List String) :
    ∀ (k : Nat) (x : String) (p : List String),
      IsWalk f x p → p.length = k + 1 → p ∈ leavesPaths (ftree f k x) := by
  intro k
  induction k with
  | zero =>
    intro x p hw hlen
    obtain ⟨hh, _⟩ := hw
    cases p with
    | nil => exact absurd hlen (by simp)
    | cons a q =>
      cases q with
      | nil =>
        have : a = x := by simpa using hh
        subst this
        show [a] ∈ leavesPaths (.mk a [])
        simp [leavesPaths]
      | cons b r => exact absurd hlen (by simp)
  | succ j ih =>
    intro x p hw hlen
    obtain ⟨hh, hchain⟩ := hw
    cases p with
    | nil => exact absurd hlen (by simp)
    | cons a q =>
      have hax : a = x := by simpa using hh
      subst hax
      cases q with
      | nil => exact absurd hlen (by simp)
      | cons b r =>
        rw [List.chain'_cons'] at hchain
        obtain ⟨hlink, hchain2⟩ := hchain
        have hb : b ∈ f a := hlink b rfl
        have hfx : f a ≠ [] := List.ne_nil_of_mem hb
        rw [leavesPaths_ftree_succ, if_neg hfx]
        simp only [List.mem_flatMap, List.mem_map]
        refine ⟨b, hb, b :: r, ih b (b :: r) ⟨rfl, hchain2⟩ ?_, rfl⟩
        simpa using hlen

/-- A leaf path of a positive-depth canonical tree whose root has
neighbors has at least two codes. -/
theorem leaves_len_ge_two (f : String → List String) (k : Nat) (x : String)
    (p : List String) (hk : 1 ≤ k) (hfx : f x ≠ [])
    (hp : p ∈ leavesPaths (ftree f k x)) : 2 ≤ p.length := by
  obtain ⟨j, rfl⟩ : ∃ j, k = j + 1 := ⟨k - 1, by omega⟩
  rw [leavesPaths_ftree_succ, if_neg hfx] at hp
  simp only [List.mem_flatMap, List.mem_map] at hp
  obtain ⟨y, _, q, hq, rfl⟩ := hp
  have hqh := (leaves_walk f j y q hq).1.1
  have hqne : q ≠ [] := by
    intro h
    rw [h] at hqh
    exact absurd hqh (by simp)
  have : 1 ≤ q.length := List.length_pos.mpr hqne
  simp only [List.length_cons]
  omega

/-- The height of a list of children dominates each child. -/
theorem heightL_ge_of_mem :
    ∀ (cs : List STree) (c : STree), c ∈ cs → 1 + heightT c ≤ heightL cs := by
  intro cs
  induction cs with
  | nil => intro c h; cases h
  | cons a t ih =>
    intro c h
    rw [heightL]
    rcases List.mem_cons.mp h with rfl | h2
    · exact le_max_left _ _
    · exact le_trans (ih c h2) (le_max_right _ _)

/-- A positive-depth canonical tree whose root has neighbors has positive
height. -/
theorem heightT_ftree_pos (f : String → List String) (k : Nat) (x : String)
    (hk : 1 ≤ k) (hfx : f x ≠ []) : 1 ≤ heightT (ftree f k x) := by
  obtain ⟨j, rfl⟩ : ∃ j, k = j + 1 := ⟨k - 1, by omega⟩
  cases hfx2 : f x with
  | nil => exact absurd hfx2 hfx
  | cons y ys =>
    show 1 ≤ heightT (.mk x ((f x).map (ftree f j)))
    rw [hfx2, List.map_cons, heightT]
    have := heightL_ge_of_mem (ftree f j y :: ys.map (ftree f j)) (ftree f j y)
      (List.mem_cons_self _ _)
    omega

/-- A walk from the root that fits in the depth budget of a canonical
tree is bounded by that tree's height. -/
theorem walk_le_height (f : String → List String) :
    ∀ (p : List String) (k : Nat) (x : String),
      IsWalk f x p → p.length ≤ k + 1 → p.length ≤ heightT (ftree f k x) + 1 := by
  intro p
  induction p with
  | nil => intro k x _ _; simp
  | cons a p2 ih =>
    intro k x hw hlen
    obtain ⟨hh, hchain⟩ := hw
    have hax : a = x := by simpa using hh
    subst hax
    cases p2 with
    | nil => simp
    | cons b q =>
      obtain ⟨j, rfl⟩ : ∃ j, k = j + 1 := by
        refine ⟨k - 1, ?_⟩
        simp only [List.length_cons] at hlen
        omega
      rw [List.chain'_cons'] at hchain
      obtain ⟨hlink, hchain2⟩ := hchain
      have hb : b ∈ f a := hlink b rfl
      have h1 : (b :: q).length ≤ heightT (ftree f j b) + 1 := by
        refine ih j b ⟨rfl, hchain2⟩ ?_
        simp only [List.length_cons] at hlen ⊢
        omega
      have h2 : 1 + heightT (ftree f j b) ≤ heightT (ftree f (j + 1) a) := by
        show 1 + _ ≤ heightT (.mk a ((f a).map (ftree f j)))
        rw [heightT]
        exact heightL_ge_of_mem _ _ (List.mem_map_of_mem (ftree f j) hb)
      simp only [List.length_cons] at h1 ⊢
      omega

/-- A positive-depth canonical tree with a root that has neighbors is not
a leaf. -/
theorem ftree_not_leaf (f : String → List String) (k : Nat) (x : String)
    (hk : 1 ≤ k) (hfx : f x ≠ []) : (ftree f k x).isLeaf = false := by
  obtain ⟨j, rfl⟩ : ∃ j, k = j + 1 := ⟨k - 1, by omega⟩
  cases hfx2 : f x with
  | nil => exact absurd hfx2 hfx
  | cons y ys =>
    show STree.isLeaf (.mk x ((f x).map (ftree f j))) = false
    rw [hfx2, List.map_cons]
    rfl

/-- build_search_tree on a positive-depth canonical tree with a
neighbored root performs the leaf expansion and yields the next canonical
tree. -/
theorem build_search_tree_ftree (pl : List String) (f : String → List String)
    (k : Nat) (x : String) (hk : 1 ≤ k) (hfx : f x ≠ []) :
    build_search_tree pl f (ftree f k x) = ftree f (k + 1) x := by
  have hlf := ftree_not_leaf f k x hk hfx
  unfold build_search_tree
  rw [if_neg (by simp [hlf])]
  exact addToLeaves_ftree f k x

/-- The tree main builds from a fresh node and the root's neighbor set is
the canonical depth-one tree. -/
theorem mainTree_eq (f : String → List String) (x : String) :
    build_search_tree (f x) f (.mk x []) = ftree f 1 x := rfl

/-- A list that is not duplicate-free splits around a repeated element. -/
theorem not_nodup_split {α : Type} :
    ∀ (l : List α), ¬ l.Nodup → ∃ a x b c, l = a ++ x :: (b ++ x :: c) := by
  intro l
  induction l with
  | nil => intro h; exact absurd List.nodup_nil h
  | cons y t ih =>
    intro h
    rw [List.nodup_cons] at h
    by_cases hy : y ∈ t
    · obtain ⟨b, c, rfl⟩ := List.append_of_mem hy
      exact ⟨[], y, b, c, rfl⟩
    · have ht : ¬ t.Nodup := by
        intro ht2
        exact h ⟨hy, ht2⟩
      obtain ⟨a, x, b, c, rfl⟩ := ih ht
      exact ⟨y :: a, x, b, c, rfl⟩

/-- Cutting a walk at a repeated code yields a strictly shorter walk with
the same two endpoints. -/
theorem walk_shorten {R : String → String → Prop} :
    ∀ (w : List String), List.Chain' R w → ¬ w.Nodup →
      ∃ w2, List.Chain' R w2 ∧ w2.head? = w.head? ∧
        w2.getLast? = w.getLast? ∧ w2.length < w.length := by
  intro w hchain hdup
  obtain ⟨a, x, b, c, rfl⟩ := not_nodup_split _ hdup
  refine ⟨a ++ x :: c, ?_, ?_, ?_, ?_⟩
  · rw [List.chain'_append] at hchain ⊢
    obtain ⟨ha, hrest, hlink⟩ := hchain
    refine ⟨ha, ?_, ?_⟩
    · rw [show x :: (b ++ x :: c) = (x :: b) ++ x :: c by simp] at hrest
      rw [List.chain'_append] at hrest
      exact hrest.2.1
    · intro u hu v hv
      refine hlink u hu v ?_
      simpa using hv
  · cases a with
    | nil => rfl
    | cons d a2 => rfl
  · rw [List.getLast?_append_of_ne_nil a (by simp),
      List.getLast?_append_of_ne_nil a (by simp)]
    show (x :: c).getLast? = (x :: (b ++ x :: c)).getLast?
    rw [show x :: (b ++ x :: c) = (x :: b) ++ x :: c by simp,
      List.getLast?_append_of_ne_nil (x :: b) (by simp)]
  · simp only [List.length_append, List.length_cons]
    omega

/-- A duplicate-free list has pairwise distinct neighbors. -/
theorem nodup_chain_ne {l : List String} (h : l.Nodup) :
    List.Chain' (fun u v => u ≠ v) l :=
  List.Pairwise.chain' h

/-- The clean_path fold appends every element when each one differs from
the previous element of the accumulated route. -/
theorem cleanOne_append :
    ∀ (rest acc : List String), acc ≠ [] →
      List.Chain' (fun u v => u ≠ v) (acc ++ rest) →
      List.foldl (fun temp x => if temp.getLastD "" == x then temp else temp ++ [x])
        acc rest = acc ++ rest := by
  intro rest
  induction rest with
  | nil => intro acc _ _; simp
  | cons y t ih =>
    intro acc hne hchain
    have hlast : ∃ z, acc.getLast? = some z := by
      cases hacc : acc.getLast? with
      | none => exact absurd (List.getLast?_eq_none_iff.mp hacc) hne
      | some z => exact ⟨z, rfl⟩
    obtain ⟨z, hz⟩ := hlast
    have hzy : z ≠ y := by
      rw [List.chain'_append] at hchain
      exact hchain.2.2 z hz y rfl
    have hguard : (acc.getLastD "" == y) = false := by
      rw [List.getLastD_eq_getLast?, hz]
      simpa using hzy
    rw [List.foldl_cons, hguard]
    show List.foldl _ (acc ++ [y]) t = acc ++ y :: t
    have := ih (acc ++ [y]) (by simp) (by simpa using hchain)
    simpa using this

/-- Membership in compare_node: exactly the pairs of leaf paths with equal
names. -/
theorem compare_node_mem {ps qs : List (List String)} {p q : List String} :
    (p, q) ∈ compare_node ps qs ↔ p ∈ ps ∧ q ∈ qs ∧ pathName q = pathName p := by
  unfold compare_node
  simp only [List.mem_flatMap, List.mem_map, List.mem_filter, beq_iff_eq]
  constructor
  · rintro ⟨p2, hp2, q2, ⟨hq2, hname⟩, heq⟩
    cases heq
    exact ⟨hp2, hq2, hname⟩
  · rintro ⟨hp, hq, hname⟩
    exact ⟨p, hp, q, ⟨hq, hname⟩, rfl⟩

/-- Edge membership for the forward neighbor sets read from routes. -/
theorem mem_find_possible_destinations {routes : List (String × String)}
    {x y : String} :
    y ∈ find_possible_destinations routes x ↔ (x, y) ∈ routes := by
  unfold find_possible_destinations
  simp only [List.mem_dedup, List.mem_map, List.mem_filter, beq_iff_eq]
  constructor
  · rintro ⟨⟨a1, a2⟩, ⟨hmem, h1⟩, h2⟩
    cases h1
    cases h2
    exact hmem
  · intro h
    exact ⟨(x, y), ⟨h, rfl⟩, rfl⟩

/-- Edge membership for the backward neighbor sets read from routes. -/
theorem mem_find_possible_starts {routes : List (String × String)}
    {x y : String} :
    x ∈ find_possible_starts routes y ↔ (x, y) ∈ routes := by
  unfold find_possible_starts
  simp only [List.mem_dedup, List.mem_map, List.mem_filter, beq_iff_eq]
  constructor
  · rintro ⟨⟨a1, a2⟩, ⟨hmem, h1⟩, h2⟩
    cases h1
    cases h2
    exact hmem
  · intro h
    exact ⟨(x, y), ⟨h, rfl⟩, rfl⟩

/-- afterMatch with the dead guard removed: return the cleaned routes on a
match, otherwise expand the forward tree on equal heights and the backward
tree on unequal heights. -/
theorem afterMatch_eq (f g : String → List String) (sT dT : STree)
    (mp : List (List String × List String)) :
    afterMatch f g sT dT mp =
      if mp.isEmpty = false then .ret (.routes (clean_path mp))
      else if heightT sT == heightT dT then
        .rec2 (build_search_tree (retrieve_leaves sT) f sT) dT
      else .rec2 sT (build_search_tree (retrieve_leaves dT) g dT) := by
  unfold afterMatch
  rw [if_neg (by simp [nodeEqFive])]

/-- The step function on every call after the first: the string matching
is skipped (the source compares Node objects by identity there), so the
step is afterMatch with the empty match list below height 2 and with the
compare_node pairs otherwise. -/
theorem findRoutesStep_false (f g : String → List String) (start stop : String)
    (l0 d0 : List String) (sT dT : STree) :
    findRoutesStep f g start stop l0 d0 sT dT false =
      if heightT sT < 2 then afterMatch f g sT dT []
      else afterMatch f g sT dT
        ((compare_node (leavesPaths sT) (leavesPaths dT)).map
          (fun pr => (pr.1, pr.2.reverse))) := by
  unfold findRoutesStep
  rw [if_neg (by simp)]
  by_cases hh : heightT sT < 2
  · rw [if_pos hh, if_pos hh]
    simp
  · rw [if_neg hh, if_neg hh]

/-- A walk is never the empty list. -/
theorem isWalk_ne_nil {f : String → List String} {x : String} {p : List String}
    (h : IsWalk f x p) : p ≠ [] := by
  intro he
  rw [he] at h
  exact absurd h.1 (by simp)

/-- The last element of a non-empty path is its pathName. -/
theorem getLast?_pathName {p : List String} (h : p ≠ []) :
    p.getLast? = some (pathName p) := by
  cases hp : p.getLast? with
  | none => exact absurd (List.getLast?_eq_none_iff.mp hp) h
  | some z => rw [pathName_eq_of_getLast? hp]

/-- Turning a backward walk around yields a forward walk, by consistency
of the two neighbor relations. -/
theorem chain_rev_fg {f g : String → List String}
    (hcons : ∀ u v : String, v ∈ f u ↔ u ∈ g v) {q : List String}
    (h : List.Chain' (fun u v => v ∈ g u) q) :
    List.Chain' (fun u v => v ∈ f u) q.reverse := by
  rw [List.chain'_reverse]
  exact List.Chain'.imp (fun a b hab => (hcons b a).mpr hab) h

/-- Turning a forward walk around yields a backward walk. -/
theorem chain_rev_gf {f g : String → List String}
    (hcons : ∀ u v : String, v ∈ f u ↔ u ∈ g v) {s : List String}
    (h : List.Chain' (fun u v => v ∈ f u) s) :
    List.Chain' (fun u v => v ∈ g u) s.reverse := by
  rw [List.chain'_reverse]
  exact List.Chain'.imp (fun a b hab => (hcons a b).mp hab) h

/-- The last element of a chained list of length at least two has a
predecessor under the chain relation. -/
theorem chain_last_prev {R : String → String → Prop} :
    ∀ (l : List String), List.Chain' R l → 2 ≤ l.length →
      ∃ u, R u (pathName l) := by
  intro l
  induction l with
  | nil => intro _ h; simp at h
  | cons a t ih =>
    intro hchain hlen
    cases t with
    | nil => simp at hlen
    | cons b r =>
      cases r with
      | nil =>
        rw [List.chain'_cons] at hchain
        exact ⟨a, hchain.1⟩
      | cons c r2 =>
        rw [List.chain'_cons] at hchain
        have h2 := ih hchain.2 (by simp)
        rw [pathName_cons a (by simp)]
        exact h2

/-- Splitting a list of length a + b + 1 around its middle element. -/
theorem walk_split (w : List String) (a b : Nat) (hlen : w.length = a + b + 1) :
    ∃ p z s, w = p ++ z :: s ∧ p.length = a ∧ s.length = b := by
  have hw := (List.take_append_drop a w).symm
  have hdlen : (w.drop a).length = b + 1 := by
    rw [List.length_drop, hlen]
    omega
  cases hd : w.drop a with
  | nil => rw [hd] at hdlen; simp at hdlen
  | cons z s =>
    refine ⟨w.take a, z, s, by rw [← hd]; exact hw, ?_, ?_⟩
    · rw [List.length_take, hlen]
      simp
      omega
    · rw [hd] at hdlen
      simpa using hdlen

/-- getLast? skips the head when the tail is non-empty. -/
theorem getLast?_cons_ne {a : String} {l : List String} (h : l ≠ []) :
    (a :: l).getLast? = l.getLast? := by
  cases l with
  | nil => exact absurd rfl h
  | cons b t => exact List.getLast?_cons_cons

/-- When compare_node finds nothing between the two canonical frontiers,
no route-graph walk from S to D has exactly the corresponding length. -/
theorem no_match_no_exact_walk (f g : String → List String) (S D : String)
    (hcons : ∀ u v, v ∈ f u ↔ u ∈ g v) (a b : Nat) (_ha : 1 ≤ a) (_hb : 1 ≤ b)
    (hmp : compare_node (leavesPaths (ftree f a S)) (leavesPaths (ftree g b D)) = [])
    (w : List String) (hw : IsWalk f S w) (hwD : w.getLast? = some D) :
    w.length ≠ a + b + 1 := by
  intro hlen
  obtain ⟨p, z, s, hsplit, hpl, hsl⟩ := walk_split w a b hlen
  obtain ⟨hwh, hwchain⟩ := hw
  rw [hsplit] at hwh hwchain hwD
  rw [List.chain'_append] at hwchain
  obtain ⟨hpchain, hzschain, hlink⟩ := hwchain
  have hfwd : (p ++ [z]) ∈ leavesPaths (ftree f a S) := by
    refine walk_leaves f a S (p ++ [z]) ⟨?_, ?_⟩ (by simp [hpl])
    · rw [← hwh]
      cases p with
      | nil => rfl
      | cons d p2 => rfl
    · rw [List.chain'_append]
      refine ⟨hpchain, List.chain'_singleton z, ?_⟩
      intro u hu v hv
      cases hv
      exact hlink u hu z rfl
  have hgetw : (z :: s).getLast? = some D := by
    rw [List.getLast?_append_of_ne_nil p (by simp)] at hwD
    exact hwD
  have hbwd : (z :: s).reverse ∈ leavesPaths (ftree g b D) := by
    refine walk_leaves g b D (z :: s).reverse ⟨?_, ?_⟩ (by simp [hsl])
    · rw [List.head?_reverse, hgetw]
    · exact chain_rev_gf hcons hzschain
  have hn1 : pathName ((z :: s).reverse) = z :=
    pathName_eq_of_getLast? (by rw [List.getLast?_reverse]; rfl)
  have hn2 : pathName (p ++ [z]) = z :=
    pathName_eq_of_getLast?
      (by rw [List.getLast?_append_of_ne_nil p (by simp)]; simp)
  have hnames : pathName ((z :: s).reverse) = pathName (p ++ [z]) := by
    rw [hn1, hn2]
  have : ((p ++ [z]), (z :: s).reverse) ∈
      compare_node (leavesPaths (ftree f a S)) (leavesPaths (ftree g b D)) :=
    compare_node_mem.mpr ⟨hfwd, hbwd, hnames⟩
  rw [hmp] at this
  cases this

/-- Every pair matched by compare_node between the two canonical
frontiers, under a minimality bound on S-to-D walks, cleans up to a
duplicate-free route of exactly the minimal length. -/
theorem match_candidate (f g : String → List String) (S D : String)
    (hcons : ∀ u v, v ∈ f u ↔ u ∈ g v) (hS : f S ≠ []) (hD : g D ≠ [])
    (a b : Nat) (ha : 1 ≤ a) (hb : 1 ≤ b)
    (hNW : ∀ w, IsWalk f S w → w.getLast? = some D → a + b + 1 ≤ w.length)
    (p q : List String)
    (hpq : (p, q) ∈ compare_node (leavesPaths (ftree f a S))
      (leavesPaths (ftree g b D))) :
    (cleanOne p q.reverse).Nodup ∧ (cleanOne p q.reverse).length = a + b + 1 ∧
      IsWalk f S (cleanOne p q.reverse) ∧
      (cleanOne p q.reverse).getLast? = some D := by
  obtain ⟨hp, hq, hname⟩ := compare_node_mem.mp hpq
  obtain ⟨hwp, hplen⟩ := leaves_walk f a S p hp
  obtain ⟨hwq, hqlen⟩ := leaves_walk g b D q hq
  have hp2 : 2 ≤ p.length := leaves_len_ge_two f a S p ha hS hp
  have hq2 : 2 ≤ q.length := leaves_len_ge_two g b D q hb hD hq
  have hfq : f (pathName q) ≠ [] := by
    obtain ⟨u, hu⟩ := chain_last_prev q hwq.2 hq2
    exact List.ne_nil_of_mem ((hcons (pathName q) u).mpr hu)
  have hgp : g (pathName p) ≠ [] := by
    obtain ⟨u, hu⟩ := chain_last_prev p hwp.2 hp2
    exact List.ne_nil_of_mem ((hcons u (pathName p)).mp hu)
  have hplen2 : p.length = a + 1 := by
    cases hplen with
    | inl h => exact h
    | inr h =>
      rw [hname] at hfq
      exact absurd h hfq
  have hqlen2 : q.length = b + 1 := by
    cases hqlen with
    | inl h => exact h
    | inr h =>
      rw [← hname] at hgp
      exact absurd h hgp
  have hqne : q ≠ [] := isWalk_ne_nil hwq
  have hpne : p ≠ [] := isWalk_ne_nil hwp
  have hqrev_head : q.reverse.head? = some (pathName q) := by
    rw [List.head?_reverse]
    exact getLast?_pathName hqne
  obtain ⟨rest, hrest⟩ : ∃ rest, q.reverse = pathName q :: rest := by
    cases hr : q.reverse with
    | nil => rw [hr] at hqrev_head; exact absurd hqrev_head (by simp)
    | cons e t =>
      rw [hr] at hqrev_head
      simp only [List.head?_cons, Option.some.injEq] at hqrev_head
      exact ⟨t, by rw [hqrev_head]⟩
  have hrestlen : rest.length = b := by
    have h2 : q.reverse.length = b + 1 := by rw [List.length_reverse, hqlen2]
    rw [hrest] at h2
    simpa using h2
  have hrestne : rest ≠ [] := by
    intro h
    rw [h] at hrestlen
    simp at hrestlen
    omega
  have hchainrev : List.Chain' (fun u v => v ∈ f u) (pathName q :: rest) := by
    rw [← hrest]
    exact chain_rev_fg hcons hwq.2
  have hlastp : p.getLast? = some (pathName q) := by
    rw [getLast?_pathName hpne, hname]
  have hwchain : List.Chain' (fun u v => v ∈ f u) (p ++ rest) := by
    rw [List.chain'_append]
    refine ⟨hwp.2, hchainrev.tail, ?_⟩
    intro u hu v hv
    rw [hlastp] at hu
    cases hu
    rw [List.chain'_cons'] at hchainrev
    exact hchainrev.1 v hv
  have hwhead : (p ++ rest).head? = some S := by
    rw [List.head?_append_of_ne_nil _ hpne]
    exact hwp.1
  have hwlast : (p ++ rest).getLast? = some D := by
    rw [List.getLast?_append_of_ne_nil p hrestne,
      ← getLast?_cons_ne (a := pathName q) hrestne, ← hrest, List.getLast?_reverse]
    exact hwq.1
  have hwlen : (p ++ rest).length = a + b + 1 := by
    rw [List.length_append, hplen2, hrestlen]
    omega
  have hwnodup : (p ++ rest).Nodup := by
    by_contra hdup
    obtain ⟨w2, hc2, hh2, hl2, hlen2⟩ := walk_shorten (p ++ rest) hwchain hdup
    have := hNW w2 ⟨by rw [hh2, hwhead], hc2⟩ (by rw [hl2, hwlast])
    omega
  have hclean : cleanOne p q.reverse = p ++ rest := by
    rw [hrest]
    unfold cleanOne
    rw [List.foldl_cons]
    have hguard : (p.getLastD "" == pathName q) = true := by
      rw [List.getLastD_eq_getLast?, hlastp]
      simp
    rw [if_pos hguard]
    exact cleanOne_append rest p hpne (nodup_chain_ne hwnodup)
  rw [hclean]
  exact ⟨hwnodup, hwlen, ⟨hwhead, hwchain⟩, hwlast⟩

/-- Main invariant of the bidirectional search on canonical states: in any
recursive round (forward depth at least 2, backward at least 1) in which
every S-to-D walk is at least as long as the two depth budgets allow, a
successful return yields routes that are all duplicate-free and all of one
common length. -/
theorem c9_inv (f g : String → List String) (S D : String)
    (hcons : ∀ u v, v ∈ f u ↔ u ∈ g v) (hS : f S ≠ []) (hD : g D ≠ []) :
    ∀ (fuel : Nat) (l0 d0 : List String) (a b : Nat) (cands : List (List String)),
      2 ≤ a → 1 ≤ b →
      (∀ w, IsWalk f S w → w.getLast? = some D → a + b + 1 ≤ w.length) →
      find_routes f g S D l0 d0 fuel (ftree f a S) (ftree g b D) false =
        some (.routes cands) →
      ∃ L, cands ≠ [] ∧
        (∀ c ∈ cands, c.Nodup ∧ c.length = L ∧ IsWalk f S c ∧
          c.getLast? = some D) ∧
        (∀ w, IsWalk f S w → w.getLast? = some D → L ≤ w.length) := by
  intro fuel
  induction fuel with
  | zero =>
    intro l0 d0 a b cands _ _ _ hrun
    exact absurd hrun (by simp [find_routes])
  | succ n ih =>
    intro l0 d0 a b cands ha hb hNW hrun
    rw [find_routes_succ, findRoutesStep_false] at hrun
    by_cases hh : heightT (ftree f a S) < 2
    · rw [if_pos hh, afterMatch_eq, if_neg (by simp)] at hrun
      have hnowalk : ∀ w, IsWalk f S w → w.getLast? = some D → False := by
        intro w hw hwD
        have hlen := hNW w hw hwD
        have hep : IsWalk f S (w.take (a + 1)) := by
          refine ⟨?_, hw.2.take _⟩
          cases hwc : w with
          | nil =>
            rw [hwc] at hw
            exact absurd hw.1 (by simp)
          | cons c w2 =>
            rw [hwc] at hw
            rw [List.take_succ_cons]
            simpa using hw.1
        have htlen : (w.take (a + 1)).length = a + 1 := by
          rw [List.length_take]
          omega
        have hble := walk_le_height f (w.take (a + 1)) a S hep (by omega)
        omega
      by_cases hht : (heightT (ftree f a S) == heightT (ftree g b D)) = true
      · rw [if_pos hht] at hrun
        dsimp only at hrun
        rw [build_search_tree_ftree _ f a S (by omega) hS] at hrun
        exact ih l0 d0 (a + 1) b cands (by omega) hb
          (fun w hw hwD => (hnowalk w hw hwD).elim) hrun
      · rw [if_neg hht] at hrun
        dsimp only at hrun
        rw [build_search_tree_ftree _ g b D (by omega) hD] at hrun
        exact ih l0 d0 a (b + 1) cands ha (by omega)
          (fun w hw hwD => (hnowalk w hw hwD).elim) hrun
    · rw [if_neg hh, afterMatch_eq] at hrun
      by_cases hmp : compare_node (leavesPaths (ftree f a S))
          (leavesPaths (ftree g b D)) = []
      · rw [hmp] at hrun
        simp only [List.map_nil, List.isEmpty_nil, Bool.true_eq_false, if_false] at hrun
        have hNW2 : ∀ w, IsWalk f S w → w.getLast? = some D →
            a + b + 2 ≤ w.length := by
          intro w hw hwD
          have h1 := hNW w hw hwD
          have h2 := no_match_no_exact_walk f g S D hcons a b (by omega) hb hmp w hw hwD
          omega
        by_cases hht : (heightT (ftree f a S) == heightT (ftree g b D)) = true
        · rw [if_pos hht] at hrun
          dsimp only at hrun
          rw [build_search_tree_ftree _ f a S (by omega) hS] at hrun
          refine ih l0 d0 (a + 1) b cands (by omega) hb ?_ hrun
          intro w hw hwD
          have := hNW2 w hw hwD
          omega
        · rw [if_neg hht] at hrun
          dsimp only at hrun
          rw [build_search_tree_ftree _ g b D (by omega) hD] at hrun
          refine ih l0 d0 a (b + 1) cands ha (by omega) ?_ hrun
          intro w hw hwD
          have := hNW2 w hw hwD
          omega
      · have hne : (compare_node (leavesPaths (ftree f a S))
            (leavesPaths (ftree g b D))).map (fun pr => (pr.1, pr.2.reverse)) ≠ [] := by
          simpa using hmp
        rw [if_pos (by simpa using hne)] at hrun
        dsimp only at hrun
        have h2 := Option.some.inj hrun
        injection h2 with h3
        refine ⟨a + b + 1, ?_, ?_, hNW⟩
        · rw [← h3]
          unfold clean_path
          simp only [ne_eq, List.map_eq_nil_iff]
          exact hmp
        · intro c hc
          rw [← h3] at hc
          unfold clean_path at hc
          rw [List.map_map] at hc
          simp only [List.mem_map, Function.comp] at hc
          obtain ⟨⟨p, q⟩, hpqmem, hceq⟩ := hc
          have hcand := match_candidate f g S D hcons hS hD a b (by omega) hb hNW p q hpqmem
          dsimp only at hceq
          rw [hceq] at hcand
          exact hcand

/-- A tree whose children are all fresh leaves has height at most one. -/
theorem heightL_map_ftree_zero (f : String → List String) :
    ∀ l : List String, heightL (l.map (ftree f 0)) ≤ 1 := by
  intro l
  induction l with
  | nil => simp [heightL]
  | cons y t ih =>
    rw [List.map_cons, heightL]
    have h0 : heightT (ftree f 0 y) = 0 := rfl
    omega

/-- The depth-one canonical tree has height at most one. -/
theorem heightT_ftree_one_le (f : String → List String) (x : String) :
    heightT (ftree f 1 x) ≤ 1 := by
  show heightT (.mk x ((f x).map (ftree f 0))) ≤ 1
  rw [heightT]
  exact heightL_map_ftree_zero f (f x)

/-- Membership in the compare intersection. -/
theorem compareStr_mem {xs ys : List String} {c : String} :
    c ∈ compareStr xs ys ↔ c ∈ xs ∧ c ∈ ys := by
  unfold compareStr
  simp

/-- Compare against an empty second list finds nothing. -/
theorem compareStr_nil_right (xs : List String) : compareStr xs [] = [] := by
  unfold compareStr
  simp

/-- Leaf paths of the depth-one canonical tree with at least one
neighbor. -/
theorem leavesPaths_ftree_one (f : String → List String) (x : String)
    (hfx : f x ≠ []) :
    leavesPaths (ftree f 1 x) = (f x).map (fun y => [x, y]) := by
  rw [leavesPaths_ftree_succ, if_neg hfx]
  have hgen : ∀ l : List String,
      l.flatMap (fun y => (leavesPaths (ftree f 0 y)).map (fun p => x :: p)) =
        l.map (fun y => [x, y]) := by
    intro l
    induction l with
    | nil => rfl
    | cons y t ih =>
      rw [List.flatMap_cons, ih, List.map_cons,
        show leavesPaths (ftree f 0 y) = [[y]] from rfl]
      rfl
  exact hgen (f x)

/-- get_path on the depth-one canonical tree finds the two-code path
through the requested neighbor. -/
theorem get_path_ftree_one (f : String → List String) (x c : String)
    (hc : c ∈ f x) : get_path c (ftree f 1 x) = [x, c] := by
  have hfx : f x ≠ [] := List.ne_nil_of_mem hc
  unfold get_path
  rw [leavesPaths_ftree_one f x hfx]
  have hgen : ∀ l : List String, c ∈ l →
      ((l.map (fun y => [x, y])).find? (fun p => pathName p == c)).getD [] = [x, c] := by
    intro l
    induction l with
    | nil => intro h; cases h
    | cons y t ih =>
      intro h
      rw [List.map_cons, List.find?_cons]
      have hpn : pathName [x, y] = y := rfl
      cases hyc : (pathName [x, y] == c) with
      | true =>
        rw [hpn] at hyc
        have : y = c := by simpa using hyc
        subst this
        rfl
      | false =>
        rw [hpn] at hyc
        have hyc2 : y ≠ c := by simpa using hyc
        rcases List.mem_cons.mp h with rfl | h2
        · exact absurd rfl hyc2
        · exact ih h2
  exact hgen (f x) hc

/-- Cleaning the depth-one matched pair produces the three-code route. -/
theorem cleanOne_two (x c z : String) (hcz : c ≠ z) :
    cleanOne [x, c] [c, z] = [x, c, z] := by
  unfold cleanOne
  rw [List.foldl_cons]
  have h1 : ([x, c].getLastD "" == c) = true := by simp
  rw [if_pos h1, List.foldl_cons]
  have h2 : ([x, c].getLastD "" == z) = false := by simp [hcz]
  rw [if_neg (by simp [h2, hcz])]
  rfl

/-- When the start code has no outgoing edges and the destination has no
incoming edges, the search loops forever on a fixed pair of degenerate
one-child trees. -/
theorem loop_A1 (f g : String → List String) (S D : String) (hfs : f S = []) :
    ∀ (n : Nat) (l0 d0 : List String),
      find_routes f g S D l0 d0 n (.mk S [.mk S []]) (.mk D [.mk D []]) false = none := by
  intro n
  induction n with
  | zero => intro l0 d0; rfl
  | succ m ih =>
    intro l0 d0
    rw [find_routes_succ, findRoutesStep_false]
    have hh : heightT (STree.mk S [STree.mk S []]) < 2 := by simp [heightT, heightL]
    rw [if_pos hh, afterMatch_eq, if_neg (by simp)]
    have hht : (heightT (STree.mk S [STree.mk S []])
        == heightT (STree.mk D [STree.mk D []])) = true := by
      simp [heightT, heightL]
    rw [if_pos hht]
    have hbuild : build_search_tree (retrieve_leaves (STree.mk S [STree.mk S []])) f
        (STree.mk S [STree.mk S []]) = STree.mk S [STree.mk S []] := by
      simp [build_search_tree, STree.isLeaf, addToLeaves, addToLeavesL, hfs]
    rw [hbuild]
    dsimp only
    exact ih l0 d0

/-- When the start code has no outgoing edges but the destination has
incoming edges, the search expands the backward tree forever and never
returns. -/
theorem loop_A2 (f g : String → List String) (S D : String) (hgd : g D ≠ []) :
    ∀ (n b : Nat) (l0 d0 : List String), 1 ≤ b →
      find_routes f g S D l0 d0 n (.mk S []) (ftree g b D) false = none := by
  intro n
  induction n with
  | zero => intro b l0 d0 _; rfl
  | succ m ih =>
    intro b l0 d0 hb
    rw [find_routes_succ, findRoutesStep_false]
    have hh : heightT (STree.mk S []) < 2 := by simp [heightT, heightL]
    rw [if_pos hh, afterMatch_eq, if_neg (by simp)]
    have h0 : heightT (STree.mk S []) = 0 := rfl
    have h2 := heightT_ftree_pos g b D hb hgd
    have hne : ¬ ((heightT (STree.mk S []) == heightT (ftree g b D)) = true) := by
      rw [h0]
      simp
      omega
    rw [if_neg hne, build_search_tree_ftree _ g b D hb hgd]
    dsimp only
    exact ih (b + 1) l0 d0 (by omega)

/-- When the destination code has no incoming edges (and differs from the
start), the search never returns: the forward tree can never contain a
leaf named D, and the degenerate backward tree never changes. -/
theorem loop_B1 (f g : String → List String) (S D : String)
    (hcons : ∀ u v, v ∈ f u ↔ u ∈ g v) (hSD : S ≠ D) (hS : f S ≠ [])
    (hgd : g D = []) :
    ∀ (n a : Nat) (l0 d0 : List String), 1 ≤ a →
      find_routes f g S D l0 d0 n (ftree f a S) (.mk D [.mk D []]) false = none := by
  intro n
  induction n with
  | zero => intro a l0 d0 _; rfl
  | succ m ih =>
    intro a l0 d0 ha
    rw [find_routes_succ, findRoutesStep_false]
    have hhd : heightT (STree.mk D [STree.mk D []]) = 1 := by simp [heightT, heightL]
    by_cases hh : heightT (ftree f a S) < 2
    · rw [if_pos hh, afterMatch_eq, if_neg (by simp)]
      have h1 : 1 ≤ heightT (ftree f a S) := heightT_ftree_pos f a S ha hS
      have hht : (heightT (ftree f a S) == heightT (STree.mk D [STree.mk D []])) = true := by
        rw [hhd]
        simp
        omega
      rw [if_pos hht, build_search_tree_ftree _ f a S ha hS]
      dsimp only
      exact ih (a + 1) l0 d0 (by omega)
    · rw [if_neg hh]
      have hmp : compare_node (leavesPaths (ftree f a S))
          (leavesPaths (STree.mk D [STree.mk D []])) = [] := by
        rw [List.eq_nil_iff_forall_not_mem]
        intro pr hpr
        obtain ⟨p, q⟩ := pr
        obtain ⟨hp, hq, hname⟩ := compare_node_mem.mp hpr
        have hlq : leavesPaths (STree.mk D [STree.mk D []]) = [[D, D]] := by
          simp [leavesPaths, leavesPathsL]
        rw [hlq] at hq
        have hq2 : q = [D, D] := by simpa using hq
        subst hq2
        have hnameD : pathName p = D := by
          rw [← hname]
          rfl
        obtain ⟨hwp, _⟩ := leaves_walk f a S p hp
        cases hpc : p with
        | nil => exact absurd hpc (isWalk_ne_nil hwp)
        | cons e t =>
          rw [hpc] at hwp hnameD
          have he : e = S := by simpa using hwp.1
          cases t with
          | nil =>
            subst he
            exact hSD hnameD
          | cons e2 t2 =>
            have hl2 : 2 ≤ (e :: e2 :: t2).length := by simp
            obtain ⟨u, hu⟩ := chain_last_prev (e :: e2 :: t2) hwp.2 hl2
            rw [hnameD] at hu
            have h3 : u ∈ g D := (hcons u D).mp hu
            rw [hgd] at h3
            cases h3
      rw [hmp]
      simp only [List.map_nil]
      rw [afterMatch_eq, if_neg (by simp)]
      have hne2 : ¬ ((heightT (ftree f a S)
          == heightT (STree.mk D [STree.mk D []])) = true) := by
        rw [hhd]
        simp
        omega
      rw [if_neg hne2]
      have hbuild : build_search_tree (retrieve_leaves (STree.mk D [STree.mk D []])) g
          (STree.mk D [STree.mk D []]) = STree.mk D [STree.mk D []] := by
        simp [build_search_tree, STree.isLeaf, addToLeaves, addToLeavesL, hgd]
      rw [hbuild]
      dsimp only
      exact ih a l0 d0 ha

/-- Shape of the first call's step when the direct test and the string
matching both fail. -/
theorem findRoutesStep_true_nomatch (f g : String → List String) (S D : String)
    (l0 d0 : List String) (sT dT : STree)
    (hdir : l0.contains D = false)
    (hm : compareStr d0 l0 = [])
    (hh : heightT sT < 2) :
    findRoutesStep f g S D l0 d0 sT dT true = afterMatch f g sT dT [] := by
  unfold findRoutesStep
  rw [if_neg (by rw [Bool.true_and, hdir]; simp), if_pos hh]
  dsimp only
  rw [if_pos rfl, hm]
  simp

/-- Shape of the first call's step when the direct test fails but the
string matching succeeds. -/
theorem findRoutesStep_true_match (f g : String → List String) (S D : String)
    (l0 d0 : List String) (sT dT : STree)
    (hdir : l0.contains D = false)
    (hm : compareStr d0 l0 ≠ [])
    (hh : heightT sT < 2) :
    findRoutesStep f g S D l0 d0 sT dT true =
      .ret (.routes (clean_path ((compareStr d0 l0).map
        (fun c => (get_path c sT, (get_path c dT).reverse))))) := by
  unfold findRoutesStep
  rw [if_neg (by rw [Bool.true_and, hdir]; simp), if_pos hh]
  dsimp only
  rw [if_pos rfl]
  rw [if_pos (by simp [hm])]

/-- The search as invoked by main, for consistent neighbor functions and
distinct endpoints: every successful return consists of duplicate-free
S-to-D routes of one common length, and that length is minimal among all
S-to-D walks of the route graph. -/
theorem c9_general (f g : String → List String) (S D : String)
    (hcons : ∀ u v, v ∈ f u ↔ u ∈ g v) (hSD : S ≠ D) :
    ∀ (fuel : Nat) (cands : List (List String)),
      find_routes f g S D (f S) (g D) fuel
        (build_search_tree (f S) f (.mk S []))
        (build_search_tree (g D) g (.mk D [])) true = some (.routes cands) →
      ∃ L, cands ≠ [] ∧
        (∀ c ∈ cands, c.Nodup ∧ c.length = L ∧ IsWalk f S c ∧
          c.getLast? = some D) ∧
        (∀ w, IsWalk f S w → w.getLast? = some D → L ≤ w.length) := by
  intro fuel cands hrun
  rw [mainTree_eq, mainTree_eq] at hrun
  cases fuel with
  | zero => exact absurd hrun (by simp [find_routes])
  | succ n =>
    by_cases hfs : f S = []
    · exfalso
      have hstree : ftree f 1 S = STree.mk S [] := by
        show STree.mk S ((f S).map (ftree f 0)) = STree.mk S []
        rw [hfs]
        rfl
      rw [hstree, find_routes_succ] at hrun
      have hdir : ((f S).contains D) = false := by rw [hfs]; rfl
      have hm : compareStr (g D) (f S) = [] := by
        rw [hfs]
        exact compareStr_nil_right (g D)
      have hh : heightT (STree.mk S []) < 2 := by simp [heightT, heightL]
      rw [findRoutesStep_true_nomatch f g S D (f S) (g D) _ _ hdir hm hh] at hrun
      rw [afterMatch_eq, if_neg (by simp)] at hrun
      by_cases hgd : g D = []
      · have hdtree : ftree g 1 D = STree.mk D [] := by
          show STree.mk D ((g D).map (ftree g 0)) = STree.mk D []
          rw [hgd]
          rfl
        rw [hdtree] at hrun
        have hht : (heightT (STree.mk S []) == heightT (STree.mk D [])) = true := rfl
        rw [if_pos hht] at hrun
        have hbuild : build_search_tree (retrieve_leaves (STree.mk S [])) f
            (STree.mk S []) = STree.mk S [STree.mk S []] := by
          simp [build_search_tree, STree.isLeaf, STree.nameOf, retrieve_leaves,
            leavesPaths, pathName]
        rw [hbuild] at hrun
        dsimp only at hrun
        cases n with
        | zero => exact absurd hrun (by simp [find_routes])
        | succ m =>
          rw [find_routes_succ, findRoutesStep_false] at hrun
          have hh1 : heightT (STree.mk S [STree.mk S []]) < 2 := by
            simp [heightT, heightL]
          rw [if_pos hh1, afterMatch_eq, if_neg (by simp)] at hrun
          have hne : ¬ ((heightT (STree.mk S [STree.mk S []])
              == heightT (STree.mk D [])) = true) := by
            simp [heightT, heightL]
          rw [if_neg hne] at hrun
          have hbuild2 : build_search_tree (retrieve_leaves (STree.mk D [])) g
              (STree.mk D []) = STree.mk D [STree.mk D []] := by
            simp [build_search_tree, STree.isLeaf, STree.nameOf, retrieve_leaves,
              leavesPaths, pathName]
          rw [hbuild2] at hrun
          dsimp only at hrun
          rw [loop_A1 f g S D hfs m (f S) (g D)] at hrun
          exact absurd hrun (by simp)
      · have h1 := heightT_ftree_pos g 1 D (le_refl 1) hgd
        have hne : ¬ ((heightT (STree.mk S []) == heightT (ftree g 1 D)) = true) := by
          have h0 : heightT (STree.mk S []) = 0 := rfl
          rw [h0]
          simp
          omega
        rw [if_neg hne, build_search_tree_ftree _ g 1 D (le_refl 1) hgd] at hrun
        dsimp only at hrun
        rw [loop_A2 f g S D hgd n 2 (f S) (g D) (by omega)] at hrun
        exact absurd hrun (by simp)
    · by_cases hgd : g D = []
      · exfalso
        have hdtree : ftree g 1 D = STree.mk D [] := by
          show STree.mk D ((g D).map (ftree g 0)) = STree.mk D []
          rw [hgd]
          rfl
        rw [hdtree, find_routes_succ] at hrun
        have hdir : ((f S).contains D) = false := by
          cases hcd : ((f S).contains D) with
          | false => rfl
          | true =>
            have hD2 : D ∈ f S := by
              have := hcd
              simpa using this
            have h3 : S ∈ g D := (hcons S D).mp hD2
            rw [hgd] at h3
            cases h3
        have hm : compareStr (g D) (f S) = [] := by rw [hgd]; rfl
        have hh : heightT (ftree f 1 S) < 2 := by
          have := heightT_ftree_one_le f S
          omega
        rw [findRoutesStep_true_nomatch f g S D (f S) (g D) _ _ hdir hm hh] at hrun
        rw [afterMatch_eq, if_neg (by simp)] at hrun
        have h1 : 1 ≤ heightT (ftree f 1 S) := heightT_ftree_pos f 1 S (le_refl 1) hfs
        have hne : ¬ ((heightT (ftree f 1 S) == heightT (STree.mk D [])) = true) := by
          have h0 : heightT (STree.mk D []) = 0 := rfl
          rw [h0]
          simp
          omega
        rw [if_neg hne] at hrun
        have hbuild : build_search_tree (retrieve_leaves (STree.mk D [])) g
            (STree.mk D []) = STree.mk D [STree.mk D []] := by
          simp [build_search_tree, STree.isLeaf, STree.nameOf, retrieve_leaves,
            leavesPaths, pathName]
        rw [hbuild] at hrun
        dsimp only at hrun
        rw [loop_B1 f g S D hcons hSD hfs hgd n 1 (f S) (g D) (le_refl 1)] at hrun
        exact absurd hrun (by simp)
      · rw [find_routes_succ] at hrun
        by_cases hdir : ((f S).contains D) = true
        · have hstep : findRoutesStep f g S D (f S) (g D) (ftree f 1 S) (ftree g 1 D) true
              = .ret (.routes [[S, D]]) := by
            unfold findRoutesStep
            rw [if_pos (by rw [Bool.true_and, hdir])]
          rw [hstep] at hrun
          dsimp only at hrun
          have h2 := Option.some.inj hrun
          injection h2 with h3
          have hDmem : D ∈ f S := by simpa using hdir
          refine ⟨2, ?_, ?_, ?_⟩
          · rw [← h3]
            simp
          · intro c hc
            rw [← h3] at hc
            have hc2 : c = [S, D] := by simpa using hc
            subst hc2
            refine ⟨by simp [hSD], rfl, ⟨rfl, ?_⟩, by simp⟩
            rw [List.chain'_cons]
            exact ⟨hDmem, List.chain'_singleton D⟩
          · intro w hw hwD
            rcases w with _ | ⟨x1, _ | ⟨x2, t⟩⟩
            · exact absurd hw.1 (by simp)
            · have h1x : x1 = S := by simpa using hw.1
              have h2x : x1 = D := by simpa using hwD
              exact absurd (h1x.symm.trans h2x) hSD
            · simp only [List.length_cons]
              omega
        · have hdirf : ((f S).contains D) = false := by
            cases hcd : ((f S).contains D) with
            | false => rfl
            | true => exact absurd hcd hdir
          have hh : heightT (ftree f 1 S) < 2 := by
            have := heightT_ftree_one_le f S
            omega
          by_cases hm : compareStr (g D) (f S) = []
          · rw [findRoutesStep_true_nomatch f g S D (f S) (g D) _ _ hdirf hm hh] at hrun
            rw [afterMatch_eq, if_neg (by simp)] at hrun
            have h1 : 1 ≤ heightT (ftree f 1 S) := heightT_ftree_pos f 1 S (le_refl 1) hfs
            have h1d : 1 ≤ heightT (ftree g 1 D) := heightT_ftree_pos g 1 D (le_refl 1) hgd
            have h1s2 := heightT_ftree_one_le f S
            have h1d2 := heightT_ftree_one_le g D
            have hht : (heightT (ftree f 1 S) == heightT (ftree g 1 D)) = true := by
              simp
              omega
            rw [if_pos hht, build_search_tree_ftree _ f 1 S (le_refl 1) hfs] at hrun
            dsimp only at hrun
            refine c9_inv f g S D hcons hfs hgd n (f S) (g D) 2 1 cands (le_refl 2)
              (le_refl 1) ?_ hrun
            intro w hw hwD
            obtain ⟨hwh, hwchain⟩ := hw
            rcases w with _ | ⟨x1, _ | ⟨x2, _ | ⟨x3, t⟩⟩⟩
            · exact absurd hwh (by simp)
            · have h1x : x1 = S := by simpa using hwh
              have h2x : x1 = D := by simpa using hwD
              exact absurd (h1x.symm.trans h2x) hSD
            · have h1x : x1 = S := by simpa using hwh
              have h2x : x2 = D := by simpa using hwD
              rw [List.chain'_cons] at hwchain
              have hmem : D ∈ f S := by
                rw [← h1x, ← h2x]
                exact hwchain.1
              have hcon : (f S).contains D = true := by simpa using hmem
              rw [hdirf] at hcon
              simp at hcon
            · cases t with
              | nil =>
                have h1x : x1 = S := by simpa using hwh
                have h2x : x3 = D := by simpa using hwD
                rw [List.chain'_cons, List.chain'_cons] at hwchain
                obtain ⟨hx2, hD2, _⟩ := hwchain
                have hx2g : x2 ∈ g D := (hcons x2 D).mp (h2x ▸ hD2)
                have hx2f : x2 ∈ f S := h1x ▸ hx2
                have hx2m : x2 ∈ compareStr (g D) (f S) := compareStr_mem.mpr ⟨hx2g, hx2f⟩
                rw [hm] at hx2m
                exact absurd hx2m (List.not_mem_nil x2)
              | cons x4 t2 =>
                simp only [List.length_cons]
                omega
          · rw [findRoutesStep_true_match f g S D (f S) (g D) _ _ hdirf hm hh] at hrun
            dsimp only at hrun
            have h2 := Option.some.inj hrun
            injection h2 with h3
            refine ⟨3, ?_, ?_, ?_⟩
            · rw [← h3]
              unfold clean_path
              simp only [ne_eq, List.map_eq_nil_iff]
              exact hm
            · intro c hc
              rw [← h3] at hc
              unfold clean_path at hc
              rw [List.map_map] at hc
              simp only [List.mem_map, Function.comp] at hc
              obtain ⟨c0, hc0, hceq⟩ := hc
              obtain ⟨hc0g, hc0f⟩ := compareStr_mem.mp hc0
              have hc0D : c0 ≠ D := by
                intro h
                have hcon : (f S).contains D = true := by
                  have hDm : D ∈ f S := h ▸ hc0f
                  simpa using hDm
                rw [hdirf] at hcon
                simp at hcon
              have hc0S : c0 ≠ S := by
                intro h
                have hDf : D ∈ f S := (hcons S D).mpr (h ▸ hc0g)
                have hcon : (f S).contains D = true := by simpa using hDf
                rw [hdirf] at hcon
                simp at hcon
              rw [get_path_ftree_one f S c0 hc0f, get_path_ftree_one g D c0 hc0g] at hceq
              rw [show ([D, c0] : List String).reverse = [c0, D] from rfl] at hceq
              rw [cleanOne_two S c0 D hc0D] at hceq
              subst hceq
              refine ⟨?_, rfl, ⟨rfl, ?_⟩, by simp⟩
              · simp [List.nodup_cons, hSD, hc0D]
                intro h
                exact hc0S h.symm
              · rw [List.chain'_cons, List.chain'_cons]
                exact ⟨hc0f, (hcons c0 D).mpr hc0g, List.chain'_singleton D⟩
            · intro w hw hwD
              rcases w with _ | ⟨x1, _ | ⟨x2, _ | ⟨x3, t⟩⟩⟩
              · exact absurd hw.1 (by simp)
              · have h1x : x1 = S := by simpa using hw.1
                have h2x : x1 = D := by simpa using hwD
                exact absurd (h1x.symm.trans h2x) hSD
              · have h1x : x1 = S := by simpa using hw.1
                have h2x : x2 = D := by simpa using hwD
                have hwchain2 := hw.2
                rw [List.chain'_cons] at hwchain2
                have hmem : D ∈ f S := by
                  rw [← h1x, ← h2x]
                  exact hwchain2.1
                have hcon : (f S).contains D = true := by simpa using hmem
                rw [hdirf] at hcon
                simp at hcon
              · simp only [List.length_cons]
                omega

/-- C9: for every pair of distinct start and destination codes on which
the path finder as invoked by main succeeds, the returned path candidates
all share one common length, that length is the minimum hop count (each
candidate is a route-graph walk from start to destination of the common
length, the candidate set is non-empty, and no walk from start to
destination in the route graph is shorter), and no returned candidate
contains the same airport code twice. -/
theorem c9_candidates_uniform_and_duplicate_free :
    ∀ (routes : List (String × String)) (S D : String) (fuel : Nat)
      (cands : List (List String)),
      S ≠ D →
      mainFindRoutes routes S D fuel = some (.routes cands) →
      ∃ L, cands ≠ [] ∧
        (∀ c ∈ cands, c.Nodup ∧ c.length = L ∧
          IsWalk (find_possible_destinations routes) S c ∧
          c.getLast? = some D) ∧
        (∀ w, IsWalk (find_possible_destinations routes) S w →
          w.getLast? = some D → L ≤ w.length) := by
  intro routes S D fuel cands hSD hrun
  have hm : mainFindRoutes routes S D fuel =
      find_routes (find_possible_destinations routes) (find_possible_starts routes)
        S D (find_possible_destinations routes S) (find_possible_starts routes D) fuel
        (build_search_tree (find_possible_destinations routes S)
          (find_possible_destinations routes) (.mk S []))
        (build_search_tree (find_possible_starts routes D)
          (find_possible_starts routes) (.mk D [])) true := rfl
  rw [hm] at hrun
  exact c9_general (find_possible_destinations routes) (find_possible_starts routes)
    S D (fun u v => by rw [mem_find_possible_destinations, mem_find_possible_starts])
    hSD fuel cands hrun

/-- Witness for C9 on a two-edge graph: the unique candidate is a
duplicate-free walk from S to D realising the common length, and that
length is minimal among all S-to-D walks. -/
theorem c9_witness :
    ("S" : String) ≠ "D" ∧
    mainFindRoutes [("S", "A"), ("A", "D")] "S" "D" 1 =
      some (.routes [["S", "A", "D"]]) ∧
    ∃ L, [["S", "A", "D"]] ≠ ([] : List (List String)) ∧
      (∀ c ∈ [["S", "A", "D"]], c.Nodup ∧ c.length = L ∧
        IsWalk (find_possible_destinations [("S", "A"), ("A", "D")]) "S" c ∧
        c.getLast? = some "D") ∧
      (∀ w, IsWalk (find_possible_destinations [("S", "A"), ("A", "D")]) "S" w →
        w.getLast? = some "D" → L ≤ w.length) :=
  ⟨by decide, by decide,
    c9_candidates_uniform_and_duplicate_free [("S", "A"), ("A", "D")] "S" "D" 1
      [["S", "A", "D"]] (by decide) (by decide)⟩
